import Mathlib

/-!
Shallow embedding of `src/src/datastructures/b_tree.py` (classes `BTreeNode`
and `BTree`) and verification of the specification's claims about it.

Keys are embedded as `Int` (the repository's tests use Python ints; the code
only compares keys with `>` and `==`).  The Python `None`-key guard at the top
of `search`/`insert`/`remove` raises `ValueError` before anything else runs;
every claim below is about non-null keys, so the embedded operations take an
`Int` key directly and the guard branch is unreachable for them.

Python's in-place mutation through the recorded root-to-leaf `path` of
`(node, child_index)` pairs is embedded as pure bottom-up reconstruction: the
descent picks the same child index (`idxFor`), the mutation happens at the
same node, and each loop iteration of `_fix_insert` / `_fix_remove` — which
mutates the parent of the current path node through an alias — becomes a
transformation applied by the parent when the recursion returns.  All index
computations, slice bounds and branch conditions are copied verbatim from the
source.
-/

set_option maxHeartbeats 1000000

namespace BTreePy

/-- Embedding of class `BTreeNode`: `keys` and `children` lists
(`b_tree.py` lines 23-25). -/
inductive BTreeNode : Type where
  | mk (keys : List Int) (children : List BTreeNode)

/-- `self.keys` accessor. -/
def BTreeNode.keys : BTreeNode → List Int
  | .mk ks _ => ks

/-- `self.children` accessor. -/
def BTreeNode.children : BTreeNode → List BTreeNode
  | .mk _ cs => cs

@[simp] theorem BTreeNode.keys_mk (ks : List Int) (cs : List BTreeNode) :
    (BTreeNode.mk ks cs).keys = ks := rfl

@[simp] theorem BTreeNode.children_mk (ks : List Int) (cs : List BTreeNode) :
    (BTreeNode.mk ks cs).children = cs := rfl

/-- `BTreeNode.is_leaf` (line 41-49): leaf iff `children` is empty. -/
def BTreeNode.is_leaf (n : BTreeNode) : Bool := n.children.isEmpty

/-- `BTreeNode.is_internal` (line 27-39): `not self.is_leaf()`. -/
def BTreeNode.is_internal (n : BTreeNode) : Bool := ! n.is_leaf

/-- `BTreeNode.insert_key` (line 51-61): `self.keys.insert(idx, key)`. -/
def BTreeNode.insert_key (n : BTreeNode) (idx : Nat) (key : Int) : BTreeNode :=
  .mk (n.keys.insertIdx idx key) n.children

/-- Embedding of class `BTree` (lines 93-95): an `order` and an optional
`root` (`None` for the empty tree). -/
structure BTree where
  order : Nat
  root : Option BTreeNode

/-- `(c0 :: cs)[i]` with the head as fallback stays in the list; used for
the termination argument of the descent recursions. -/
theorem getD_cons_mem {α : Type} (cs : List α) (c0 : α) (i : Nat) :
    (c0 :: cs).getD i c0 ∈ c0 :: cs := by
  by_cases h : i < (c0 :: cs).length
  · rw [List.getD_eq_getElem _ _ h]
    exact List.getElem_mem h
  · rw [List.getD_eq_default _ _ (by omega)]
    exact List.mem_cons_self c0 cs

/-- A member of the `children` list is smaller than the node, for the
termination arguments. -/
theorem sizeOf_mem_children_lt {c : BTreeNode} {ks : List Int}
    {cs : List BTreeNode} (h : c ∈ cs) : sizeOf c < sizeOf (BTreeNode.mk ks cs) := by
  have := List.sizeOf_lt_of_mem h
  simp only [BTreeNode.mk.sizeOf_spec]
  omega

/-- The `while curr_key_idx < len(keys) and key > keys[curr_key_idx]`
descent loop shared by `search` (lines 127-130), `insert` (lines 162-165)
and `remove` (lines 238-241): the number of leading keys smaller than
`key`. -/
def idxFor (key : Int) (keys : List Int) : Nat :=
  (keys.takeWhile (fun x => decide (x < key))).length

/-- `BTreeNode.traverse_inorder` (lines 63-76): for each `(keys[i],
children[i])` pair yield the child's traversal then the key, and finally
traverse `children[-1]` (the *last* child).  Faithful to the generator even
on malformed nodes: keys beyond `len(children)` are dropped by `zip` where
Python would raise, and the trailing traversal uses the last element. -/
def BTreeNode.traverse_inorder : BTreeNode → List Int
  | .mk keys [] => keys
  | .mk keys (c :: cs) =>
      ((keys.zip (c :: cs)).attach.map
        (fun x => BTreeNode.traverse_inorder x.1.2 ++ [x.1.1])).flatten
      ++ BTreeNode.traverse_inorder (cs.getLastD c)
termination_by n => sizeOf n
decreasing_by
  · exact sizeOf_mem_children_lt ((List.of_mem_zip x.2).2)
  · exact sizeOf_mem_children_lt (List.getLastD_mem_cons cs c)

/-- `BTree.traverse_inorder` (lines 97-106): traverse the root if present. -/
def BTree.traverse_inorder (t : BTree) : List Int :=
  match t.root with
  | none => []
  | some r => r.traverse_inorder

/-- Result of `BTree.search`: the returned node, the explicit `None`
("not found"), or the uncaught `IndexError` raised by
`curr_node.children[curr_key_idx]` when the index is out of range. -/
inductive SearchResult : Type where
  | found (n : BTreeNode)
  | notFound
  | indexError

/-- The `while curr_node:` loop of `BTree.search` (lines 125-137).  A
`BTreeNode` object is always truthy in Python, so the loop leaves only by
`return curr_node` or by `curr_node.children[curr_key_idx]` raising
`IndexError` (at a leaf, `children` is `[]` and every index is out of
range). -/
def searchGo (target : Int) : BTreeNode → SearchResult
  | .mk keys children =>
    let i := idxFor target keys
    if i ≠ keys.length ∧ keys.getD i 0 = target then .found (.mk keys children)
    else if h : i < children.length then searchGo target children[i]
    else .indexError
termination_by n => sizeOf n
decreasing_by
  exact sizeOf_mem_children_lt (List.getElem_mem h)

/-- `BTree.search` (lines 108-137) for a non-null target: `curr_node`
starts at the root; an absent root (empty tree) falls through to
`return None`. -/
def BTree.search (t : BTree) (target : Int) : SearchResult :=
  match t.root with
  | none => .notFound
  | some r => searchGo target r

/-- One iteration of the `_fix_insert` walk (lines 196-221) performed by the
parent: if the child at index `i` now has more than `order - 1` keys, split
it at `mid = (order - 1) // 2`, replace the child slot by the left node,
insert the right node just after, and insert the promoted key
`keys[mid]` at index `i` of the parent's keys; otherwise the walk stops
(`return`) and the parent keeps the child as is. -/
def insGo (order : Nat) (key : Int) : BTreeNode → BTreeNode
  | .mk keys children =>
    let i := idxFor key keys
    match children with
    | [] => .mk (keys.insertIdx i key) []
    | c0 :: cs =>
      let c := (c0 :: cs).getD i c0
      let c2 := insGo order key c
      if c2.keys.length ≤ order - 1 then .mk keys ((c0 :: cs).set i c2)
      else
        let mid := (order - 1) / 2
        let left : BTreeNode := .mk (c2.keys.take mid) (c2.children.take (mid + 1))
        let right : BTreeNode := .mk (c2.keys.drop (mid + 1)) (c2.children.drop (mid + 1))
        .mk (keys.insertIdx i (c2.keys.getD mid 0))
          (((c0 :: cs).set i left).insertIdx (i + 1) right)
termination_by n => sizeOf n
decreasing_by
  exact sizeOf_mem_children_lt (getD_cons_mem cs c0 _)

/-- `BTree.insert` (lines 139-178) followed by `_fix_insert` (lines
180-221) for a non-null key.  An empty tree gets a fresh single-key leaf
root (lines 150-152).  Otherwise the descent records the path, the key is
inserted into the leaf at its sorted position, and the upward fix runs;
the `node_idx_in_path == 0` branch (lines 209-212) — the root itself
overflowing — creates a brand-new root holding the promoted key and the
two split halves. -/
def BTree.insert (t : BTree) (key : Int) : BTree :=
  match t.root with
  | none => ⟨t.order, some (.mk [key] [])⟩
  | some r =>
    let r2 := insGo t.order key r
    if r2.keys.length ≤ t.order - 1 then ⟨t.order, some r2⟩
    else
      let mid := (t.order - 1) / 2
      let left : BTreeNode := .mk (r2.keys.take mid) (r2.children.take (mid + 1))
      let right : BTreeNode := .mk (r2.keys.drop (mid + 1)) (r2.children.drop (mid + 1))
      ⟨t.order, some (.mk [r2.keys.getD mid 0] [left, right])⟩

/-- The spec's left split half: "left node gets keys `[0, mid)` and children
`[0, mid]`" with `mid = (order - 1) // 2`. -/
def splitLeftNode (M : Nat) (n : BTreeNode) : BTreeNode :=
  .mk (n.keys.take ((M - 1) / 2)) (n.children.take ((M - 1) / 2 + 1))

/-- The spec's right split half: "right node gets keys `[mid+1, end)` and
children `[mid+1, end]`". -/
def splitRightNode (M : Nat) (n : BTreeNode) : BTreeNode :=
  .mk (n.keys.drop ((M - 1) / 2 + 1)) (n.children.drop ((M - 1) / 2 + 1))

/-- The spec's promoted key: "the key at `mid` is promoted into the
parent". -/
def promotedKey (M : Nat) (n : BTreeNode) : Int :=
  n.keys.getD ((M - 1) / 2) 0

/-- `BTree._is_node_underflowing` (lines 362-380) for a non-root node:
`len(node.keys) < (order - 1) // 2`.  (The source returns `False` for the
root; the embedding never applies the check to the root.) -/
def isUnderflowing (order : Nat) (n : BTreeNode) : Bool :=
  n.keys.length < (order - 1) / 2

/-- `BTree._is_node_populous` (lines 382-400) for a non-root node:
`len(node.keys) >= (order - 1) // 2 + 1`. -/
def isPopulous (order : Nat) (n : BTreeNode) : Bool :=
  (order - 1) / 2 + 1 ≤ n.keys.length

/-- One iteration of the `_fix_remove` walk (lines 283-360) performed by
the parent `p` on its child at index `i`:
* child not underflowing — the walk stops, `p` unchanged (line 290);
* `i != 0` and the left sibling populous — redistribute (lines 295-314):
  concatenate `left.keys + [p.keys[i-1]] + child.keys` (and the children),
  split at `len // 2`, write the middle key back as separator `p.keys[i-1]`;
* else `i != len(p.children) - 1` and the right sibling populous —
  the symmetric redistribution (lines 317-336);
* else if `i == len(p.children) - 1` — merge the child into the *left*
  sibling (lines 343-350): the left sibling absorbs the separator
  `p.keys[i-1]` and the child's keys/children, the child's slot and the
  separator are removed from `p`;
* else — merge the *right* sibling into the child (lines 352-358): the
  child absorbs the separator `p.keys[i]` and the right sibling's
  keys/children, the sibling's slot and the separator are removed from `p`.
The root-collapse check and the walk's continuation live in the callers. -/
def fixChild (order : Nat) (p : BTreeNode) (i : Nat) : BTreeNode :=
  match p with
  | .mk keys [] => .mk keys []
  | .mk keys (c0 :: cs) =>
    let ch := c0 :: cs
    let c := ch.getD i c0
    if ¬ isUnderflowing order c then .mk keys ch
    else
      let left := ch.getD (i - 1) c0
      let right := ch.getD (i + 1) c0
      if i ≠ 0 ∧ isPopulous order left then
        let mkeys := left.keys ++ [keys.getD (i - 1) 0] ++ c.keys
        let mchildren := left.children ++ c.children
        let m := mkeys.length / 2
        let left2 : BTreeNode := .mk (mkeys.take m) (mchildren.take (m + 1))
        let c2 : BTreeNode := .mk (mkeys.drop (m + 1)) (mchildren.drop (m + 1))
        .mk (keys.set (i - 1) (mkeys.getD m 0)) ((ch.set (i - 1) left2).set i c2)
      else if i ≠ ch.length - 1 ∧ isPopulous order right then
        let mkeys := c.keys ++ [keys.getD i 0] ++ right.keys
        let mchildren := c.children ++ right.children
        let m := mkeys.length / 2
        let c2 : BTreeNode := .mk (mkeys.take m) (mchildren.take (m + 1))
        let right2 : BTreeNode := .mk (mkeys.drop (m + 1)) (mchildren.drop (m + 1))
        .mk (keys.set i (mkeys.getD m 0)) ((ch.set i c2).set (i + 1) right2)
      else if i = ch.length - 1 then
        let merged : BTreeNode :=
          .mk (left.keys ++ [keys.getD (i - 1) 0] ++ c.keys) (left.children ++ c.children)
        .mk (keys.eraseIdx (i - 1)) ((ch.set (i - 1) merged).eraseIdx i)
      else
        let merged : BTreeNode :=
          .mk (c.keys ++ [keys.getD i 0] ++ right.keys) (c.children ++ right.children)
        .mk (keys.eraseIdx i) ((ch.set i merged).eraseIdx (i + 1))

/-- The successor extraction of `remove` (lines 257-264): descend into the
leftmost child until a leaf, take the leaf's first key, delete it from the
leaf (`del leaf.keys[0]`), and — as the `_fix_remove` walk returns through
the recorded `(leaf, 0)` path entries (lines 259-261) — let every node on
the way repair its child 0. -/
def popSucc (order : Nat) : BTreeNode → Int × BTreeNode
  | .mk keys [] => (keys.getD 0 0, .mk (keys.eraseIdx 0) [])
  | .mk keys (c0 :: cs) =>
    let r := popSucc order c0
    (r.1, fixChild order (.mk keys ((c0 :: cs).set 0 r.2)) 0)

/-- The descent-and-delete core of `BTree.remove` (lines 234-268) plus the
per-level `_fix_remove` repairs, as a recursion on the subtree: find the
first index `i` with `key <= keys[i]`; on a match in a leaf delete
`keys[i]`; on a match in an internal node replace `keys[i]` by the in-order
successor pulled out of `children[i+1]` and repair that child; with no
match at a leaf the key is absent (`None` target, line 253-254) and the
pending `ValueError` means nothing was or will be mutated; otherwise recurse
into `children[i]` and repair it afterwards. -/
def removeGo (order : Nat) (key : Int) : BTreeNode → Option BTreeNode
  | .mk keys children =>
    let i := idxFor key keys
    if i < keys.length ∧ keys.getD i 0 = key then
      match children with
      | [] => some (.mk (keys.eraseIdx i) [])
      | c0 :: cs =>
        let r := popSucc order ((c0 :: cs).getD (i + 1) c0)
        some (fixChild order (.mk (keys.set i r.1) ((c0 :: cs).set (i + 1) r.2)) (i + 1))
    else
      match children with
      | [] => none
      | c0 :: cs =>
        match removeGo order key ((c0 :: cs).getD i c0) with
        | none => none
        | some c2 => some (fixChild order (.mk keys ((c0 :: cs).set i c2)) i)
termination_by n => sizeOf n
decreasing_by
  exact sizeOf_mem_children_lt (getD_cons_mem cs c0 _)

/-- The error raised by `remove` for a key that is not in the tree
(line 254, `ValueError("Attempted to remove a non-existing key ...")`):
the spec's KeyNotFound. -/
inductive RemoveError : Type where
  | keyNotFound

/-- `BTree.remove` (lines 223-268) followed by `_fix_remove` for a
non-null key.  An empty tree (no root) makes the descent start with
`target_node = None` and raise immediately.  The  root-collapse branch of
`_fix_remove` (lines 287-289) — the walk reaching a root left with exactly
one child — replaces the root by its sole child. -/
def BTree.remove (t : BTree) (key : Int) : Except RemoveError BTree :=
  match t.root with
  | none => .error .keyNotFound
  | some r =>
    match removeGo t.order key r with
    | none => .error .keyNotFound
    | some r2 =>
      match r2.children with
      | [c] => .ok ⟨t.order, some c⟩
      | _ => .ok ⟨t.order, some r2⟩

/-- The keys held in the nodes of the subtree rooted at `n`: the node's own
`keys` list and, recursively, every child's.  This is "the keys contained in
the tree" in the sense of node contents (unlike `traverse_inorder`, it does
not depend on the tree being well formed). -/
def BTreeNode.allKeys : BTreeNode → List Int
  | .mk ks cs => ks ++ (cs.attach.map (fun c => BTreeNode.allKeys c.1)).flatten
termination_by n => sizeOf n
decreasing_by
  exact sizeOf_mem_children_lt c.2

/-- The keys contained in the tree (empty tree: none). -/
def BTree.allKeys (t : BTree) : List Int :=
  match t.root with
  | none => []
  | some r => r.allKeys

/-- Spec wording for the successor descent of `remove` (§4.4): the leaf
reached by "repeatedly [descending] into the leftmost child until a leaf is
reached". -/
def leftmostLeaf : BTreeNode → BTreeNode
  | .mk keys [] => .mk keys []
  | .mk _ (c0 :: _) => leftmostLeaf c0
termination_by n => sizeOf n
decreasing_by
  exact sizeOf_mem_children_lt (List.mem_cons_self _ _)

theorem idxFor_le (key : Int) (keys : List Int) : idxFor key keys ≤ keys.length :=
  (List.takeWhile_sublist _).length_le

theorem mem_of_getD {ks : List Int} {i : Nat} {k : Int} (h1 : i < ks.length)
    (h2 : ks.getD i 0 = k) : k ∈ ks := by
  rw [List.getD_eq_getElem ks 0 h1] at h2
  exact h2 ▸ List.getElem_mem h1

theorem mem_allKeys_of_mem_keys {k : Int} {ks : List Int} {cs : List BTreeNode}
    (h : k ∈ ks) : k ∈ (BTreeNode.mk ks cs).allKeys := by
  rw [BTreeNode.allKeys]
  exact List.mem_append_left _ h

theorem mem_allKeys_of_mem_child {k : Int} {ks : List Int} {cs : List BTreeNode}
    {c : BTreeNode} (hc : c ∈ cs) (h : k ∈ c.allKeys) :
    k ∈ (BTreeNode.mk ks cs).allKeys := by
  rw [BTreeNode.allKeys]
  refine List.mem_append_right _ (List.mem_flatten.mpr ⟨c.allKeys, ?_, h⟩)
  simp only [List.mem_map, List.mem_attach, true_and, Subtype.exists]
  exact ⟨c, hc, rfl⟩

/-- If the key is nowhere in the subtree, the descend-and-delete phase of
`remove` reports it missing and builds nothing. -/
theorem removeGo_eq_none {M : Nat} {k : Int} : ∀ {n : BTreeNode},
    k ∉ n.allKeys → removeGo M k n = none := by
  intro n
  induction n using removeGo.induct M k with
  | case1 ks i hmatch =>
    intro h
    exact absurd (mem_allKeys_of_mem_keys (mem_of_getD hmatch.1 hmatch.2)) h
  | case2 ks i hmatch c0 cs =>
    intro h
    exact absurd (mem_allKeys_of_mem_keys (mem_of_getD hmatch.1 hmatch.2)) h
  | case3 ks i hmatch =>
    intro h
    rw [removeGo]
    simp only [if_neg hmatch]
  | case4 ks i hmatch c0 cs hnone ih =>
    intro h
    rw [removeGo]
    simp only [if_neg hmatch, hnone]
  | case5 ks i hmatch c0 cs r hsome ih =>
    intro h
    have hn := ih (fun hm => h (mem_allKeys_of_mem_child (getD_cons_mem cs c0 _) hm))
    rw [hsome] at hn
    exact absurd hn (Option.some_ne_none r)

/-- Structural consistency (spec §3 / §8): an internal node has exactly one
more child than keys, recursively. -/
def Struct : BTreeNode → Prop
  | .mk ks cs => (cs = [] ∨ cs.length = ks.length + 1) ∧ ∀ c ∈ cs, Struct c
termination_by n => sizeOf n
decreasing_by
  exact sizeOf_mem_children_lt (by assumption)

/-- Depth of the leftmost path. -/
def heightOf : BTreeNode → Nat
  | .mk _ [] => 0
  | .mk _ (c :: _) => heightOf c + 1
termination_by n => sizeOf n
decreasing_by
  exact sizeOf_mem_children_lt (List.mem_cons_self _ _)

/-- Balanced depth (spec §3): all leaves at the same depth — equivalently,
all children have equal `heightOf` and are themselves uniform. -/
def Uniform : BTreeNode → Prop
  | .mk _ cs => (∀ c ∈ cs, Uniform c) ∧ ∀ c ∈ cs, ∀ c2 ∈ cs, heightOf c = heightOf c2
termination_by n => sizeOf n
decreasing_by
  exact sizeOf_mem_children_lt (by assumption)

/-- Occupancy bounds for a subtree all of whose nodes are non-root:
`floor((M-1)/2) ≤ keys ≤ M - 1`, recursively (spec §3). -/
def SubOk (M : Nat) : BTreeNode → Prop
  | .mk ks cs => (M - 1) / 2 ≤ ks.length ∧ ks.length ≤ M - 1 ∧ ∀ c ∈ cs, SubOk M c
termination_by n => sizeOf n
decreasing_by
  exact sizeOf_mem_children_lt (by assumption)

/-- Occupancy at the root: the root obeys the fan-out bound, needs a key as
soon as it is internal, and is exempt from the minimum. -/
def RootOk (M : Nat) (n : BTreeNode) : Prop :=
  n.keys.length ≤ M - 1 ∧ (n.children ≠ [] → 1 ≤ n.keys.length) ∧
    ∀ c ∈ n.children, SubOk M c

/-- The B-Tree invariant of the spec (§3), for a whole tree. -/
def Valid (t : BTree) : Prop :=
  3 ≤ t.order ∧
    match t.root with
    | none => True
    | some r => Struct r ∧ Uniform r ∧
        List.Pairwise (· < ·) r.traverse_inorder ∧ RootOk t.order r

/-- The trees reachable by the public operations from an empty tree of
order `M ≥ 3`: inserting a key not currently present (spec §1: keys are
unique by contract) and removing a key (successfully — by C4, a failed
removal leaves the tree unchanged). -/
inductive Reachable : Nat → BTree → Prop where
  | empty (M : Nat) (h3 : 3 ≤ M) : Reachable M ⟨M, none⟩
  | ins (M : Nat) (t : BTree) (k : Int) (h : Reachable M t)
      (hk : k ∉ t.traverse_inorder) : Reachable M (t.insert k)
  | rem (M : Nat) (t t2 : BTree) (k : Int) (h : Reachable M t)
      (hdel : t.remove k = .ok t2) : Reachable M t2

/-- Insertion position inside the flat key sequence: before the first
element that is not smaller than `k`. -/
def sortedIns (k : Int) (l : List Int) : List Int :=
  l.takeWhile (fun x => decide (x < k)) ++ k :: l.dropWhile (fun x => decide (x < k))

/-- The concatenation `left.keys + [separator] + right.keys` /
`left.children + right.children` built by the redistribution and merge
branches of `_fix_remove` (lines 299-301, 321-323, 344-347, 353-356). -/
def glueNode (s : Int) (L c : BTreeNode) : BTreeNode :=
  .mk (L.keys ++ [s] ++ c.keys) (L.children ++ c.children)

/-- The split point `len(keys) // 2` of the redistribution branches
(lines 303, 325). -/
def glueMid (s : Int) (L c : BTreeNode) : Nat :=
  (L.keys ++ [s] ++ c.keys).length / 2

/-- The first half of a node cut at key index `m` (keys `[0, m)`,
children `[0, m]`). -/
def cutLeft (m : Nat) (d : BTreeNode) : BTreeNode :=
  .mk (d.keys.take m) (d.children.take (m + 1))

/-- The second half of a node cut at key index `m` (keys `(m, end)`,
children `(m, end)`). -/
def cutRight (m : Nat) (d : BTreeNode) : BTreeNode :=
  .mk (d.keys.drop (m + 1)) (d.children.drop (m + 1))

/-- Every node of a subtree: the node itself and, recursively, all nodes
of its children.  "Every non-root node" of a tree is every node of every
child of the root. -/
def allNodes : BTreeNode → List BTreeNode
  | .mk ks cs => .mk ks cs :: (cs.attach.map (fun c => allNodes c.1)).flatten
termination_by n => sizeOf n
decreasing_by
  exact sizeOf_mem_children_lt c.2

/-- Strong induction on the node size, used to recurse simultaneously into
a child and into the "tail" node `⟨ks, cs⟩` of `⟨k :: ks, c :: cs⟩`. -/
theorem node_strong_ind (P : BTreeNode → Prop)
    (ih : ∀ n : BTreeNode, (∀ m : BTreeNode, sizeOf m < sizeOf n → P m) → P n) :
    ∀ n, P n := by
  have key : ∀ (s : Nat) (n : BTreeNode), sizeOf n ≤ s → P n := by
    intro s
    induction s with
    | zero =>
      intro n h0
      exact ih n (fun m hm => absurd (Nat.lt_of_lt_of_le hm h0) (Nat.not_lt_zero _))
    | succ s ihs =>
      intro n hn
      exact ih n (fun m hm => ihs m (by omega))
  exact fun n => key (sizeOf n) n (Nat.le_refl _)

/-- Normal form of the traversal of an internal node. -/
theorem trav_internal (ks : List Int) (c : BTreeNode) (cs : List BTreeNode) :
    (BTreeNode.mk ks (c :: cs)).traverse_inorder =
      ((ks.zip (c :: cs)).map (fun p => p.2.traverse_inorder ++ [p.1])).flatten
        ++ (cs.getLastD c).traverse_inorder := by
  rw [BTreeNode.traverse_inorder]
  rw [List.attach_map_coe (ks.zip (c :: cs)) (fun p => p.2.traverse_inorder ++ [p.1])]

/-- The traversal of a leaf is its key list. -/
theorem trav_leaf (ks : List Int) :
    (BTreeNode.mk ks []).traverse_inorder = ks := by
  rw [BTreeNode.traverse_inorder]

/-- The traversal of a keyless single-child node is the child's. -/
theorem trav_last (c : BTreeNode) :
    (BTreeNode.mk [] [c]).traverse_inorder = c.traverse_inorder := by
  rw [trav_internal]
  simp

/-- Head decomposition of the traversal: child, key, rest of the node. -/
theorem trav_cons (k0 : Int) (ks : List Int) (c0 c1 : BTreeNode)
    (cs : List BTreeNode) :
    (BTreeNode.mk (k0 :: ks) (c0 :: c1 :: cs)).traverse_inorder =
      c0.traverse_inorder ++ k0 :: (BTreeNode.mk ks (c1 :: cs)).traverse_inorder := by
  rw [trav_internal, trav_internal]
  simp only [List.zip_cons_cons, List.map_cons, List.flatten_cons,
    List.getLastD_cons, List.append_assoc, List.cons_append, List.nil_append]

/-! Unfolding equations for the recursive invariant predicates. -/

theorem Struct_mk (ks : List Int) (cs : List BTreeNode) :
    Struct (.mk ks cs) ↔
      (cs = [] ∨ cs.length = ks.length + 1) ∧ ∀ c ∈ cs, Struct c := by
  rw [Struct]

theorem Uniform_mk (ks : List Int) (cs : List BTreeNode) :
    Uniform (.mk ks cs) ↔
      (∀ c ∈ cs, Uniform c) ∧ ∀ c ∈ cs, ∀ c2 ∈ cs, heightOf c = heightOf c2 := by
  rw [Uniform]

theorem SubOk_mk (M : Nat) (ks : List Int) (cs : List BTreeNode) :
    SubOk M (.mk ks cs) ↔
      (M - 1) / 2 ≤ ks.length ∧ ks.length ≤ M - 1 ∧ ∀ c ∈ cs, SubOk M c := by
  rw [SubOk]

theorem heightOf_leaf (ks : List Int) : heightOf (.mk ks []) = 0 := by
  rw [heightOf]

theorem heightOf_cons (ks : List Int) (c : BTreeNode) (cs : List BTreeNode) :
    heightOf (.mk ks (c :: cs)) = heightOf c + 1 := by
  rw [heightOf]

/-! Facts about the descent index `idxFor`. -/

theorem idxFor_nil (k : Int) : idxFor k [] = 0 := rfl

theorem idxFor_cons_lt {k k0 : Int} (ks : List Int) (h : k0 < k) :
    idxFor k (k0 :: ks) = idxFor k ks + 1 := by
  simp [idxFor, List.takeWhile_cons, h]

theorem idxFor_cons_ge {k k0 : Int} (ks : List Int) (h : ¬ k0 < k) :
    idxFor k (k0 :: ks) = 0 := by
  simp [idxFor, List.takeWhile_cons, h]

/-! Facts about the flat insertion position `sortedIns`. -/

theorem sortedIns_nil (k : Int) : sortedIns k [] = [k] := rfl

theorem sortedIns_cons_lt {k k0 : Int} (l : List Int) (h : k0 < k) :
    sortedIns k (k0 :: l) = k0 :: sortedIns k l := by
  simp [sortedIns, List.takeWhile_cons, List.dropWhile_cons, h]

theorem sortedIns_cons_ge {k k0 : Int} (l : List Int) (h : ¬ k0 < k) :
    sortedIns k (k0 :: l) = k :: k0 :: l := by
  simp [sortedIns, List.takeWhile_cons, List.dropWhile_cons, h]

theorem sortedIns_append_left {k : Int} {A : List Int} (B : List Int)
    (h : ∀ a ∈ A, a < k) : sortedIns k (A ++ B) = A ++ sortedIns k B := by
  induction A with
  | nil => simp
  | cons a A ih =>
    rw [List.cons_append, sortedIns_cons_lt _ (h a (List.mem_cons_self a A)),
      ih (fun x hx => h x (List.mem_cons_of_mem a hx)), List.cons_append]

theorem sortedIns_append_right {k : Int} {B : List Int} (A : List Int)
    (h : ∀ b ∈ B, ¬ b < k) : sortedIns k (A ++ B) = sortedIns k A ++ B := by
  induction A with
  | nil =>
    simp only [List.nil_append]
    cases B with
    | nil => rfl
    | cons b B =>
      rw [sortedIns_cons_ge _ (h b (List.mem_cons_self b B)), sortedIns_nil,
        List.cons_append]
      simp
  | cons a A ih =>
    by_cases ha : a < k
    · rw [List.cons_append, sortedIns_cons_lt _ ha, sortedIns_cons_lt _ ha, ih,
        List.cons_append]
    · rw [List.cons_append, sortedIns_cons_ge _ ha, sortedIns_cons_ge _ ha]
      simp

theorem insertIdx_idxFor (k : Int) (ks : List Int) :
    ks.insertIdx (idxFor k ks) k = sortedIns k ks := by
  induction ks with
  | nil => rfl
  | cons k0 ks ih =>
    by_cases h : k0 < k
    · rw [idxFor_cons_lt ks h, List.insertIdx_succ_cons, ih, sortedIns_cons_lt _ h]
    · rw [idxFor_cons_ge ks h, List.insertIdx_zero, sortedIns_cons_ge _ h]

theorem mem_sortedIns {a k : Int} (l : List Int) :
    a ∈ sortedIns k l ↔ a = k ∨ a ∈ l := by
  have hl : l.takeWhile (fun x => decide (x < k)) ++
      l.dropWhile (fun x => decide (x < k)) = l := List.takeWhile_append_dropWhile _ _
  rw [sortedIns]
  constructor
  · intro h
    rcases List.mem_append.mp h with h1 | h1
    · exact Or.inr (by rw [← hl]; exact List.mem_append_left _ h1)
    · rcases List.mem_cons.mp h1 with h2 | h2
      · exact Or.inl h2
      · exact Or.inr (by rw [← hl]; exact List.mem_append_right _ h2)
  · intro h
    rcases h with h | h
    · subst h
      exact List.mem_append_right _ (List.mem_cons_self a _)
    · rw [← hl] at h
      rcases List.mem_append.mp h with h1 | h1
      · exact List.mem_append_left _ h1
      · exact List.mem_append_right _ (List.mem_cons_of_mem k h1)

theorem pairwise_sortedIns {k : Int} {l : List Int}
    (hs : List.Pairwise (· < ·) l) (hk : k ∉ l) :
    List.Pairwise (· < ·) (sortedIns k l) := by
  induction l with
  | nil => simp [sortedIns_nil]
  | cons a t ih =>
    rw [List.pairwise_cons] at hs
    by_cases ha : a < k
    · rw [sortedIns_cons_lt _ ha]
      rw [List.pairwise_cons]
      refine ⟨fun b hb => ?_, ih hs.2 (fun h => hk (List.mem_cons_of_mem a h))⟩
      rcases (mem_sortedIns t).mp hb with rfl | hbt
      · exact ha
      · exact hs.1 b hbt
    · have hak : k < a := by
        rcases lt_or_eq_of_le (not_lt.mp ha) with h | h
        · exact h
        · exact absurd (h ▸ List.mem_cons_self a t) hk
      rw [sortedIns_cons_ge _ ha]
      rw [List.pairwise_cons]
      refine ⟨fun b hb => ?_, List.pairwise_cons.mpr hs⟩
      rcases List.mem_cons.mp hb with rfl | hbt
      · exact hak
      · exact lt_trans hak (hs.1 b hbt)

/-- Deleting the matched index is deleting the first occurrence. -/
theorem eraseIdx_idxFor_eq_erase {k : Int} : ∀ (ks : List Int),
    idxFor k ks < ks.length → ks.getD (idxFor k ks) 0 = k →
    ks.eraseIdx (idxFor k ks) = ks.erase k := by
  intro ks
  induction ks with
  | nil => intro h; simp at h
  | cons k0 ks ih =>
    intro hlt hget
    by_cases h : k0 < k
    · rw [idxFor_cons_lt ks h] at hlt hget ⊢
      rw [List.eraseIdx_cons_succ, List.erase_cons_tail, ih (by simpa using hlt) hget]
      simp only [beq_iff_eq]
      intro he
      exact absurd he (by omega)
    · rw [idxFor_cons_ge ks h] at hget
      have hk0 : k0 = k := by simpa using hget
      subst hk0
      rw [idxFor_cons_ge ks h, List.erase_cons_head]
      rfl

theorem getD_irrel {α : Type} (l : List α) (i : Nat) (d1 d2 : α)
    (h : i < l.length) : l.getD i d1 = l.getD i d2 := by
  rw [List.getD_eq_getElem _ _ h, List.getD_eq_getElem _ _ h]

/-- `trav_cons` with the tail given by a nonemptiness hypothesis instead of
a literal `cons`. -/
theorem trav_cons2 (k0 : Int) (ks : List Int) (c0 : BTreeNode)
    (cs : List BTreeNode) (h : cs ≠ []) :
    (BTreeNode.mk (k0 :: ks) (c0 :: cs)).traverse_inorder =
      c0.traverse_inorder ++ k0 :: (BTreeNode.mk ks cs).traverse_inorder := by
  cases cs with
  | nil => exact absurd rfl h
  | cons c1 cs' => exact trav_cons k0 ks c0 c1 cs'

/-- Gluing two sibling nodes around a separator key concatenates their
traversals around the separator. -/
theorem trav_append (s : Int) : ∀ (lk : List Int) (lch : List BTreeNode)
    (ck : List Int) (cch : List BTreeNode),
    lch.length = lk.length + 1 → cch.length = ck.length + 1 →
    (BTreeNode.mk (lk ++ s :: ck) (lch ++ cch)).traverse_inorder =
      (BTreeNode.mk lk lch).traverse_inorder ++
        s :: (BTreeNode.mk ck cch).traverse_inorder := by
  intro lk
  induction lk with
  | nil =>
    intro lch ck cch h1 h2
    cases lch with
    | nil => simp at h1
    | cons c lch' =>
      cases lch' with
      | cons _ _ => simp at h1
      | nil =>
        cases cch with
        | nil => simp at h2
        | cons c2 cs2 =>
          rw [List.nil_append, List.singleton_append, trav_cons, trav_last]
  | cons k0 lk ih =>
    intro lch ck cch h1 h2
    cases lch with
    | nil => simp at h1
    | cons c0 lch' =>
      have h1' : lch'.length = lk.length + 1 := by simpa using h1
      cases lch' with
      | nil => simp at h1'
      | cons c1 lch'' =>
        have hih := ih (c1 :: lch'') ck cch h1' h2
        simp only [List.cons_append] at hih
        rw [List.cons_append, List.cons_append, List.cons_append, trav_cons,
          trav_cons, hih]
        simp [List.append_assoc]

/-- The traversal context of child slot `i`: everything before the slot
and everything after it, with the slot's immediate neighbour keys at the
inner ends of the two context lists. -/
theorem trav_slot_ctx : ∀ (i : Nat) (keys : List Int) (ch : List BTreeNode),
    i < ch.length → ch.length = keys.length + 1 →
    ∃ X Y : List Int,
      (∀ c' : BTreeNode, (BTreeNode.mk keys (ch.set i c')).traverse_inorder
          = X ++ c'.traverse_inorder ++ Y) ∧
      (BTreeNode.mk keys ch).traverse_inorder
          = X ++ (ch.getD i (.mk [] [])).traverse_inorder ++ Y ∧
      (i = 0 → X = []) ∧
      (1 ≤ i → ∃ X' : List Int, X = X' ++ [keys.getD (i - 1) 0]) ∧
      (i = keys.length → Y = []) ∧
      (i < keys.length → ∃ Y' : List Int, Y = keys.getD i 0 :: Y') := by
  intro i
  induction i with
  | zero =>
    intro keys ch hi hlen
    cases ch with
    | nil => simp at hi
    | cons c0 cs =>
      cases keys with
      | nil =>
        have hcs : cs = [] := by
          simp only [List.length_cons, List.length_nil] at hlen
          exact List.eq_nil_of_length_eq_zero (by omega)
        subst hcs
        refine ⟨[], [], ?_, ?_, fun _ => rfl, by omega, fun _ => rfl, by simp⟩
        · intro c'
          rw [List.set_cons_zero, trav_last]
          simp
        · rw [List.getD_cons_zero, trav_last]
          simp
      | cons k0 ks =>
        have : cs.length = ks.length + 1 := by simpa using hlen
        cases cs with
        | nil => simp at this
        | cons c1 cs' =>
          refine ⟨[], k0 :: (BTreeNode.mk ks (c1 :: cs')).traverse_inorder,
            ?_, ?_, fun _ => rfl, by omega, by simp, ?_⟩
          · intro c'
            rw [List.set_cons_zero, trav_cons]
            simp
          · rw [List.getD_cons_zero, trav_cons]
            simp
          · intro _
            exact ⟨(BTreeNode.mk ks (c1 :: cs')).traverse_inorder, by simp⟩
  | succ j ih =>
    intro keys ch hi hlen
    cases ch with
    | nil => simp at hi
    | cons c0 cs =>
      cases keys with
      | nil =>
        simp only [List.length_cons, List.length_nil] at hlen hi
        omega
      | cons k0 ks =>
        have hj : j < cs.length := by simpa using hi
        have hlen' : cs.length = ks.length + 1 := by simpa using hlen
        cases cs with
        | nil => simp at hj
        | cons c1 cs' =>
          obtain ⟨X0, Y0, hset, horig, hx0, hx1, hy0, hy1⟩ :=
            ih ks (c1 :: cs') hj hlen'
          refine ⟨c0.traverse_inorder ++ k0 :: X0, Y0, ?_, ?_, by omega, ?_, ?_, ?_⟩
          · intro c'
            rw [List.set_cons_succ,
              trav_cons2 k0 ks c0 ((c1 :: cs').set j c')
                (by apply List.ne_nil_of_length_pos; simp),
              hset c']
            simp [List.append_assoc]
          · rw [List.getD_cons_succ, trav_cons, horig]
            simp [List.append_assoc]
          · intro _
            cases j with
            | zero =>
              rw [hx0 rfl]
              exact ⟨c0.traverse_inorder, by simp⟩
            | succ m =>
              obtain ⟨X', hX'⟩ := hx1 (by omega)
              refine ⟨c0.traverse_inorder ++ k0 :: X', ?_⟩
              rw [hX']
              simp only [Nat.add_sub_cancel] at hX' ⊢
              rw [List.getD_cons_succ]
              simp [List.append_assoc]
          · intro hlen2
            exact hy0 (by simpa using hlen2)
          · intro hlt
            obtain ⟨Y', hY'⟩ := hy1 (by simpa using hlt)
            exact ⟨Y', by rw [hY', List.getD_cons_succ]⟩

/-- The traversal context of the adjacent child pair `(i, i+1)` with the
separator `keys[i]` between them: fixed surroundings `X`, `Y` for the
original node, for replacing the pair and the separator, and for collapsing
the pair to a single merged node. -/
theorem trav_pair_ctx : ∀ (i : Nat) (keys : List Int) (ch : List BTreeNode),
    i + 1 < ch.length → ch.length = keys.length + 1 →
    ∃ X Y : List Int,
      (BTreeNode.mk keys ch).traverse_inorder
        = X ++ ((ch.getD i (.mk [] [])).traverse_inorder
            ++ keys.getD i 0 :: (ch.getD (i + 1) (.mk [] [])).traverse_inorder) ++ Y ∧
      (∀ (s' : Int) (L' C' : BTreeNode),
        (BTreeNode.mk (keys.set i s') ((ch.set i L').set (i + 1) C')).traverse_inorder
          = X ++ (L'.traverse_inorder ++ s' :: C'.traverse_inorder) ++ Y) ∧
      (∀ Mg : BTreeNode,
        (BTreeNode.mk (keys.eraseIdx i) ((ch.set i Mg).eraseIdx (i + 1))).traverse_inorder
          = X ++ Mg.traverse_inorder ++ Y) := by
  intro i
  induction i with
  | zero =>
    intro keys ch hi hlen
    cases ch with
    | nil => simp at hi
    | cons c0 cs =>
      cases cs with
      | nil => simp at hi
      | cons c1 cs' =>
        cases keys with
        | nil => simp at hlen
        | cons k0 ks =>
          have hlen' : cs'.length = ks.length := by simpa using hlen
          cases ks with
          | nil =>
            have hnil : cs' = [] := List.eq_nil_of_length_eq_zero (by simpa using hlen')
            subst hnil
            refine ⟨[], [], ?_, ?_, ?_⟩
            · rw [trav_cons, trav_last]
              simp
            · intro s' L' C'
              rw [List.set_cons_zero, List.set_cons_zero, List.set_cons_succ,
                List.set_cons_zero, trav_cons, trav_last]
              simp
            · intro Mg
              rw [List.eraseIdx_cons_zero, List.set_cons_zero, List.eraseIdx_cons_succ,
                List.eraseIdx_cons_zero, trav_last]
              simp
          | cons k1 ks' =>
            cases cs' with
            | nil => simp at hlen'
            | cons c2 cs'' =>
              refine ⟨[], k1 :: (BTreeNode.mk ks' (c2 :: cs'')).traverse_inorder,
                ?_, ?_, ?_⟩
              · rw [trav_cons, trav_cons]
                simp [List.append_assoc]
              · intro s' L' C'
                rw [List.set_cons_zero, List.set_cons_zero, List.set_cons_succ,
                  List.set_cons_zero, trav_cons, trav_cons]
                simp [List.append_assoc]
              · intro Mg
                rw [List.eraseIdx_cons_zero, List.set_cons_zero, List.eraseIdx_cons_succ,
                  List.eraseIdx_cons_zero, trav_cons]
                simp
  | succ j ih =>
    intro keys ch hi hlen
    cases ch with
    | nil => simp at hi
    | cons c0 cs =>
      cases keys with
      | nil =>
        simp only [List.length_cons, List.length_nil] at hlen hi
        omega
      | cons k0 ks =>
        have hj : j + 1 < cs.length := by simpa using hi
        have hlen' : cs.length = ks.length + 1 := by simpa using hlen
        cases cs with
        | nil => simp at hj
        | cons c1 cs' =>
          obtain ⟨X0, Y0, horig, hset, herase⟩ := ih ks (c1 :: cs') hj hlen'
          refine ⟨c0.traverse_inorder ++ k0 :: X0, Y0, ?_, ?_, ?_⟩
          · rw [List.getD_cons_succ, List.getD_cons_succ, List.getD_cons_succ,
              trav_cons, horig]
            simp [List.append_assoc]
          · intro s' L' C'
            rw [List.set_cons_succ, List.set_cons_succ, List.set_cons_succ,
              trav_cons2 k0 (ks.set j s') c0 (((c1 :: cs').set j L').set (j + 1) C')
                (by apply List.ne_nil_of_length_pos; simp),
              hset s' L' C']
            simp [List.append_assoc]
          · intro Mg
            rw [List.eraseIdx_cons_succ, List.set_cons_succ, List.eraseIdx_cons_succ,
              trav_cons2 k0 (ks.eraseIdx j) c0 (((c1 :: cs').set j Mg).eraseIdx (j + 1))
                (by
                  apply List.ne_nil_of_length_pos
                  rw [List.length_eraseIdx]
                  simp only [List.length_set, List.length_cons]
                  rw [if_pos (by simpa using hj)]
                  simp only [List.length_cons] at hj
                  omega),
              herase Mg]
            simp [List.append_assoc]

/-! Preservation lemmas for insertion. -/

/-- Structure of the two halves and the updated parent in the split branch
of the upward fix. -/
theorem split_step_struct (M : Nat) (keys : List Int) (c0 : BTreeNode)
    (cs : List BTreeNode) (i : Nat) (d : BTreeNode)
    (hlen : (c0 :: cs).length = keys.length + 1)
    (hi : i ≤ keys.length)
    (hmem : ∀ x ∈ c0 :: cs, Struct x)
    (hd : Struct d)
    (hmid : (M - 1) / 2 < d.keys.length) :
    Struct (.mk (keys.insertIdx i (d.keys.getD ((M - 1) / 2) 0))
      (List.insertIdx (i + 1)
        (.mk (d.keys.drop ((M - 1) / 2 + 1)) (d.children.drop ((M - 1) / 2 + 1)))
        ((c0 :: cs).set i
          (.mk (d.keys.take ((M - 1) / 2)) (d.children.take ((M - 1) / 2 + 1)))))) := by
  rcases d with ⟨dk, dc⟩
  rw [Struct_mk] at hd
  simp only [BTreeNode.keys_mk, BTreeNode.children_mk] at hmid ⊢
  have hset : i + 1 ≤ ((c0 :: cs).set i
      (BTreeNode.mk (dk.take ((M - 1) / 2)) (dc.take ((M - 1) / 2 + 1)))).length := by
    simp only [List.length_set, List.length_cons]
    simp only [List.length_cons] at hlen
    omega
  rw [Struct_mk]
  constructor
  · right
    rw [List.length_insertIdx _ _ hset, List.length_insertIdx _ _ hi]
    simp only [List.length_set]
    simp only [List.length_cons] at hlen ⊢
    omega
  · intro x hx
    rw [List.mem_insertIdx hset] at hx
    rcases hx with rfl | hx
    · rw [Struct_mk]
      rcases hd.1 with hch | hch
      · subst hch
        exact ⟨Or.inl (by simp), by simp⟩
      · refine ⟨Or.inr ?_, fun y hy => hd.2 y (List.mem_of_mem_drop hy)⟩
        rw [List.length_drop, List.length_drop, hch]
        omega
    · rcases List.mem_or_eq_of_mem_set hx with hx | rfl
      · exact hmem x hx
      · rw [Struct_mk]
        rcases hd.1 with hch | hch
        · subst hch
          exact ⟨Or.inl (by simp), by simp⟩
        · refine ⟨Or.inr ?_, fun y hy => hd.2 y (List.mem_of_mem_take hy)⟩
          rw [List.length_take, List.length_take, hch]
          omega

theorem insGo_struct (M : Nat) (k : Int) : ∀ n, Struct n → Struct (insGo M k n) := by
  intro n
  induction n using insGo.induct M k with
  | case1 ks =>
    intro _
    rw [insGo, Struct_mk]
    exact ⟨Or.inl rfl, by simp⟩
  | case2 ks i c0 cs c c2 hle ih =>
    intro hs
    rw [Struct_mk] at hs
    rw [insGo]
    split
    · rw [Struct_mk]
      refine ⟨?_, ?_⟩
      · right
        rcases hs.1 with h | h
        · exact absurd h (by simp)
        · simpa using h
      · intro x hx
        rcases List.mem_or_eq_of_mem_set hx with hx | rfl
        · exact hs.2 x hx
        · exact ih (hs.2 c (getD_cons_mem cs c0 i))
    · exact absurd hle (by assumption)
  | case3 ks i c0 cs c c2 hgt ih =>
    intro hs
    rw [Struct_mk] at hs
    have hlen : (c0 :: cs).length = ks.length + 1 := by
      rcases hs.1 with h | h
      · exact absurd h (by simp)
      · exact h
    have hc2 : Struct c2 := ih (hs.2 c (getD_cons_mem cs c0 i))
    have hmid : (M - 1) / 2 < c2.keys.length := by
      have : (M - 1) / 2 ≤ M - 1 := Nat.div_le_self _ _
      omega
    rw [insGo]
    split
    · exact absurd (by assumption) hgt
    · exact split_step_struct M ks c0 cs i c2 hlen (idxFor_le k ks) hs.2 hc2 hmid

theorem Struct_elim {n : BTreeNode} (h : Struct n) :
    (n.children = [] ∨ n.children.length = n.keys.length + 1) ∧
      ∀ c ∈ n.children, Struct c := by
  rcases n with ⟨ks, cs⟩
  rw [Struct_mk] at h
  exact h

theorem SubOk_elim {M : Nat} {n : BTreeNode} (h : SubOk M n) :
    (M - 1) / 2 ≤ n.keys.length ∧ n.keys.length ≤ M - 1 ∧
      ∀ c ∈ n.children, SubOk M c := by
  rcases n with ⟨ks, cs⟩
  rw [SubOk_mk] at h
  exact h

theorem SubOk_intro {M : Nat} {n : BTreeNode}
    (h1 : (M - 1) / 2 ≤ n.keys.length) (h2 : n.keys.length ≤ M - 1)
    (h3 : ∀ c ∈ n.children, SubOk M c) : SubOk M n := by
  rcases n with ⟨ks, cs⟩
  rw [SubOk_mk]
  exact ⟨h1, h2, h3⟩

theorem Uniform_elim {n : BTreeNode} (h : Uniform n) :
    (∀ c ∈ n.children, Uniform c) ∧
      ∀ c ∈ n.children, ∀ c2 ∈ n.children, heightOf c = heightOf c2 := by
  rcases n with ⟨ks, cs⟩
  rw [Uniform_mk] at h
  exact h

theorem Uniform_intro {n : BTreeNode} (h1 : ∀ c ∈ n.children, Uniform c)
    (h2 : ∀ c ∈ n.children, ∀ c2 ∈ n.children, heightOf c = heightOf c2) :
    Uniform n := by
  rcases n with ⟨ks, cs⟩
  rw [Uniform_mk]
  exact ⟨h1, h2⟩

theorem length_le_insertIdx {α : Type} (a : α) : ∀ (n : Nat) (l : List α),
    l.length ≤ (List.insertIdx n a l).length := by
  intro n
  induction n with
  | zero => intro l; simp [List.insertIdx_zero]
  | succ m ih =>
    intro l
    cases l with
    | nil => simp
    | cons b t =>
      rw [List.insertIdx_succ_cons]
      simpa using ih t

theorem insGo_keys_len (M : Nat) (k : Int) (n : BTreeNode) :
    n.keys.length ≤ (insGo M k n).keys.length ∧
      (insGo M k n).keys.length ≤ n.keys.length + 1 := by
  rcases n with ⟨ks, cs⟩
  cases cs with
  | nil =>
    rw [insGo]
    simp only [BTreeNode.keys_mk]
    rw [List.length_insertIdx _ _ (idxFor_le k ks)]
    omega
  | cons c0 cs =>
    rw [insGo]
    split
    · simp
    · simp only [BTreeNode.keys_mk]
      rw [List.length_insertIdx _ _ (idxFor_le k ks)]
      omega

theorem insGo_children_ne_nil (M : Nat) (k : Int) (ks : List Int)
    (c0 : BTreeNode) (cs : List BTreeNode) :
    (insGo M k (.mk ks (c0 :: cs))).children ≠ [] := by
  rw [insGo]
  split
  · simp only [BTreeNode.children_mk]
    apply List.ne_nil_of_length_pos
    simp
  · simp only [BTreeNode.children_mk]
    apply List.ne_nil_of_length_pos
    have := length_le_insertIdx
      (BTreeNode.mk ((insGo M k ((c0 :: cs).getD (idxFor k ks) c0)).keys.drop ((M - 1) / 2 + 1))
        ((insGo M k ((c0 :: cs).getD (idxFor k ks) c0)).children.drop ((M - 1) / 2 + 1)))
      (idxFor k ks + 1)
      ((c0 :: cs).set (idxFor k ks)
        (BTreeNode.mk ((insGo M k ((c0 :: cs).getD (idxFor k ks) c0)).keys.take ((M - 1) / 2))
          ((insGo M k ((c0 :: cs).getD (idxFor k ks) c0)).children.take ((M - 1) / 2 + 1))))
    simp only [List.length_set, List.length_cons] at this
    omega

theorem insGo_occ (M : Nat) (k : Int) (hM : 3 ≤ M) : ∀ n, Struct n →
    n.keys.length ≤ M - 1 → (∀ c ∈ n.children, SubOk M c) →
    (insGo M k n).keys.length ≤ M ∧ ∀ c ∈ (insGo M k n).children, SubOk M c := by
  intro n
  induction n using insGo.induct M k with
  | case1 ks =>
    intro _ hk _
    simp only [BTreeNode.keys_mk] at hk
    rw [insGo]
    simp only [BTreeNode.keys_mk, BTreeNode.children_mk]
    rw [List.length_insertIdx _ _ (idxFor_le k ks)]
    exact ⟨by omega, by simp⟩
  | case2 ks i c0 cs c c2 hle ih =>
    intro hs hk hsub
    simp only [BTreeNode.keys_mk] at hk
    simp only [BTreeNode.children_mk] at hsub
    have hleR : (insGo M k ((c0 :: cs).getD (idxFor k ks) c0)).keys.length ≤ M - 1 := hle
    have hcsub := SubOk_elim (hsub ((c0 :: cs).getD (idxFor k ks) c0)
      (getD_cons_mem cs c0 (idxFor k ks)))
    have hlen := insGo_keys_len M k ((c0 :: cs).getD (idxFor k ks) c0)
    have hihs := ih ((Struct_elim hs).2 ((c0 :: cs).getD (idxFor k ks) c0)
      (getD_cons_mem cs c0 (idxFor k ks))) hcsub.2.1 hcsub.2.2
    rw [insGo]
    split
    · simp only [BTreeNode.keys_mk, BTreeNode.children_mk]
      refine ⟨by omega, ?_⟩
      intro x hx
      rcases List.mem_or_eq_of_mem_set hx with hx | rfl
      · exact hsub x hx
      · exact SubOk_intro (by omega) hleR hihs.2
    · exact absurd hle (by assumption)
  | case3 ks i c0 cs c c2 hgt ih =>
    intro hs hk hsub
    simp only [BTreeNode.keys_mk] at hk
    simp only [BTreeNode.children_mk] at hsub
    have hgtR : ¬ (insGo M k ((c0 :: cs).getD (idxFor k ks) c0)).keys.length ≤ M - 1 := hgt
    have hcsub := SubOk_elim (hsub ((c0 :: cs).getD (idxFor k ks) c0)
      (getD_cons_mem cs c0 (idxFor k ks)))
    have hlen := insGo_keys_len M k ((c0 :: cs).getD (idxFor k ks) c0)
    have hihs := ih ((Struct_elim hs).2 ((c0 :: cs).getD (idxFor k ks) c0)
      (getD_cons_mem cs c0 (idxFor k ks))) hcsub.2.1 hcsub.2.2
    have hc2M : (insGo M k ((c0 :: cs).getD (idxFor k ks) c0)).keys.length = M := by
      omega
    have hlen2 : cs.length = ks.length := by
      rcases (Struct_elim hs).1 with h | h
      · exact absurd h (by simp)
      · simpa using h
    rw [insGo]
    split
    · exact absurd (by assumption) hgt
    · simp only [BTreeNode.keys_mk, BTreeNode.children_mk]
      constructor
      · rw [List.length_insertIdx _ _ (idxFor_le k ks)]
        omega
      · intro x hx
        have hset : idxFor k ks + 1 ≤ ((c0 :: cs).set (idxFor k ks)
            (BTreeNode.mk
              ((insGo M k ((c0 :: cs).getD (idxFor k ks) c0)).keys.take ((M - 1) / 2))
              ((insGo M k ((c0 :: cs).getD (idxFor k ks) c0)).children.take
                ((M - 1) / 2 + 1)))).length := by
          simp only [List.length_set, List.length_cons]
          have := idxFor_le k ks
          omega
        rw [List.mem_insertIdx hset] at hx
        rcases hx with rfl | hx
        · refine SubOk_intro ?_ ?_
            (fun y hy => hihs.2 y (List.mem_of_mem_drop hy))
          · simp only [BTreeNode.keys_mk]
            rw [List.length_drop]
            omega
          · simp only [BTreeNode.keys_mk]
            rw [List.length_drop]
            omega
        · rcases List.mem_or_eq_of_mem_set hx with hx | rfl
          · exact hsub x hx
          · refine SubOk_intro ?_ ?_
              (fun y hy => hihs.2 y (List.mem_of_mem_take hy))
            · simp only [BTreeNode.keys_mk]
              rw [List.length_take]
              have h2 : (M - 1) / 2 ≤ M - 1 := Nat.div_le_self _ _
              omega
            · simp only [BTreeNode.keys_mk]
              rw [List.length_take]
              have h2 : (M - 1) / 2 ≤ M - 1 := Nat.div_le_self _ _
              omega

theorem heightOf_ne_nil (ks : List Int) (cs : List BTreeNode) (H : Nat)
    (hne : cs ≠ []) (h : ∀ x ∈ cs, heightOf x = H) :
    heightOf (.mk ks cs) = H + 1 := by
  cases cs with
  | nil => exact absurd rfl hne
  | cons d ds => rw [heightOf_cons, h d (List.mem_cons_self d ds)]

theorem splitLeftNode_def (M : Nat) (n : BTreeNode) :
    splitLeftNode M n =
      .mk (n.keys.take ((M - 1) / 2)) (n.children.take ((M - 1) / 2 + 1)) := rfl

theorem splitRightNode_def (M : Nat) (n : BTreeNode) :
    splitRightNode M n =
      .mk (n.keys.drop ((M - 1) / 2 + 1)) (n.children.drop ((M - 1) / 2 + 1)) := rfl

/-- The two split halves are uniform and sit at the height of the node
they split. -/
theorem split_uniform (M : Nat) (d : BTreeNode) (hu : Uniform d)
    (hmid : d.children = [] ∨ (M - 1) / 2 + 1 < d.children.length) :
    Uniform (splitLeftNode M d) ∧ Uniform (splitRightNode M d) ∧
      heightOf (splitLeftNode M d) = heightOf d ∧
      heightOf (splitRightNode M d) = heightOf d := by
  rcases d with ⟨dk, dc⟩
  rw [Uniform_mk] at hu
  cases dc with
  | nil =>
    rw [splitLeftNode_def, splitRightNode_def]
    simp only [BTreeNode.keys_mk, BTreeNode.children_mk, List.take_nil, List.drop_nil]
    refine ⟨?_, ?_, ?_, ?_⟩ <;>
      first
        | rw [heightOf_leaf, heightOf_leaf]
        | (rw [Uniform_mk]; simp)
  | cons d0 ds =>
    have hlt : (M - 1) / 2 + 1 < ds.length + 1 := by
      rcases hmid with h | h
      · simp at h
      · simpa using h
    rw [splitLeftNode_def, splitRightNode_def]
    simp only [BTreeNode.keys_mk, BTreeNode.children_mk]
    rw [List.take_succ_cons, List.drop_succ_cons]
    have hmemL : ∀ x ∈ d0 :: List.take ((M - 1) / 2) ds, x ∈ d0 :: ds := by
      intro x hx
      rcases List.mem_cons.mp hx with rfl | hx
      · exact List.mem_cons_self x ds
      · exact List.mem_cons_of_mem d0 (List.mem_of_mem_take hx)
    have hdropne : ds.drop ((M - 1) / 2) ≠ [] := by
      apply List.ne_nil_of_length_pos
      rw [List.length_drop]
      omega
    have hdrop_height : ∀ x ∈ ds.drop ((M - 1) / 2), heightOf x = heightOf d0 := by
      intro x hx
      exact hu.2 x (List.mem_cons_of_mem d0 (List.mem_of_mem_drop hx)) d0
        (List.mem_cons_self d0 ds)
    refine ⟨?_, ?_, ?_, ?_⟩
    · rw [Uniform_mk]
      constructor
      · intro c hc
        exact hu.1 c (hmemL c hc)
      · intro c hc c2 hc2
        exact hu.2 c (hmemL c hc) c2 (hmemL c2 hc2)
    · rw [Uniform_mk]
      constructor
      · intro c hc
        exact hu.1 c (List.mem_cons_of_mem d0 (List.mem_of_mem_drop hc))
      · intro c hc c2 hc2
        rw [hdrop_height c hc, hdrop_height c2 hc2]
    · rw [heightOf_cons, heightOf_cons]
    · rw [heightOf_ne_nil _ _ (heightOf d0) hdropne hdrop_height, heightOf_cons]

theorem insGo_uniform (M : Nat) (k : Int) (hM : 3 ≤ M) : ∀ n, Struct n →
    Uniform n → (∀ c ∈ n.children, SubOk M c) →
    Uniform (insGo M k n) ∧ heightOf (insGo M k n) = heightOf n := by
  intro n
  induction n using insGo.induct M k with
  | case1 ks =>
    intro _ _ _
    rw [insGo]
    constructor
    · rw [Uniform_mk]
      simp
    · rw [heightOf_leaf, heightOf_leaf]
  | case2 ks i c0 cs c c2 hle ih =>
    intro hs hu hsub
    simp only [BTreeNode.children_mk] at hsub
    have hcm : (c0 :: cs).getD (idxFor k ks) c0 ∈ c0 :: cs :=
      getD_cons_mem cs c0 (idxFor k ks)
    have hih := ih ((Struct_elim hs).2 _ hcm) ((Uniform_elim hu).1 _ hcm)
      (SubOk_elim (hsub _ hcm)).2.2
    have hH : ∀ x ∈ c0 :: cs, heightOf x = heightOf c0 := by
      intro x hx
      exact (Uniform_elim hu).2 x hx c0 (List.mem_cons_self c0 cs)
    have hH2 : ∀ x ∈ (c0 :: cs).set (idxFor k ks)
        (insGo M k ((c0 :: cs).getD (idxFor k ks) c0)), heightOf x = heightOf c0 := by
      intro x hx
      rcases List.mem_or_eq_of_mem_set hx with hx | rfl
      · exact hH x hx
      · rw [hih.2]
        exact hH _ hcm
    rw [insGo]
    split
    · constructor
      · refine Uniform_intro ?_ ?_
        · intro x hx
          rcases List.mem_or_eq_of_mem_set hx with hx | rfl
          · exact (Uniform_elim hu).1 x hx
          · exact hih.1
        · intro x hx c2x hc2x
          rw [hH2 x hx, hH2 c2x hc2x]
      · rw [heightOf_ne_nil _ _ (heightOf c0)
          (by apply List.ne_nil_of_length_pos; simp) hH2, heightOf_cons]
    · exact absurd hle (by assumption)
  | case3 ks i c0 cs c c2 hgt ih =>
    intro hs hu hsub
    simp only [BTreeNode.children_mk] at hsub
    have hgtR : ¬ (insGo M k ((c0 :: cs).getD (idxFor k ks) c0)).keys.length ≤ M - 1 := hgt
    have hcm : (c0 :: cs).getD (idxFor k ks) c0 ∈ c0 :: cs :=
      getD_cons_mem cs c0 (idxFor k ks)
    have hih := ih ((Struct_elim hs).2 _ hcm) ((Uniform_elim hu).1 _ hcm)
      (SubOk_elim (hsub _ hcm)).2.2
    have hcsub := SubOk_elim (hsub _ hcm)
    have hklen := insGo_keys_len M k ((c0 :: cs).getD (idxFor k ks) c0)
    have hc2M : (insGo M k ((c0 :: cs).getD (idxFor k ks) c0)).keys.length = M := by
      omega
    have hc2st := insGo_struct M k _ ((Struct_elim hs).2 _ hcm)
    have hmid : (insGo M k ((c0 :: cs).getD (idxFor k ks) c0)).children = [] ∨
        (M - 1) / 2 + 1 < (insGo M k ((c0 :: cs).getD (idxFor k ks) c0)).children.length := by
      rcases (Struct_elim hc2st).1 with h | h
      · exact Or.inl h
      · right
        rw [h, hc2M]
        have : (M - 1) / 2 ≤ M - 1 := Nat.div_le_self _ _
        omega
    have hsplit := split_uniform M _ hih.1 hmid
    have hH : ∀ x ∈ c0 :: cs, heightOf x = heightOf c0 := by
      intro x hx
      exact (Uniform_elim hu).2 x hx c0 (List.mem_cons_self c0 cs)
    have hlen2 : cs.length = ks.length := by
      rcases (Struct_elim hs).1 with h | h
      · exact absurd h (by simp)
      · simpa using h
    have hset : idxFor k ks + 1 ≤ ((c0 :: cs).set (idxFor k ks)
        (splitLeftNode M (insGo M k ((c0 :: cs).getD (idxFor k ks) c0)))).length := by
      simp only [List.length_set, List.length_cons]
      have := idxFor_le k ks
      omega
    have hH2 : ∀ x ∈ List.insertIdx (idxFor k ks + 1)
        (splitRightNode M (insGo M k ((c0 :: cs).getD (idxFor k ks) c0)))
        ((c0 :: cs).set (idxFor k ks)
          (splitLeftNode M (insGo M k ((c0 :: cs).getD (idxFor k ks) c0)))),
        heightOf x = heightOf c0 := by
      intro x hx
      rw [List.mem_insertIdx hset] at hx
      rcases hx with rfl | hx
      · rw [hsplit.2.2.2, hih.2]
        exact hH _ hcm
      · rcases List.mem_or_eq_of_mem_set hx with hx | rfl
        · exact hH x hx
        · rw [hsplit.2.2.1, hih.2]
          exact hH _ hcm
    rw [insGo]
    split
    · exact absurd (by assumption) hgt
    · dsimp only
      rw [← splitLeftNode_def M (insGo M k ((c0 :: cs).getD (idxFor k ks) c0)),
        ← splitRightNode_def M (insGo M k ((c0 :: cs).getD (idxFor k ks) c0))]
      constructor
      · refine Uniform_intro ?_ ?_
        · intro x hx
          have hx2 : x ∈ List.insertIdx (idxFor k ks + 1)
              (splitRightNode M (insGo M k ((c0 :: cs).getD (idxFor k ks) c0)))
              ((c0 :: cs).set (idxFor k ks)
                (splitLeftNode M (insGo M k ((c0 :: cs).getD (idxFor k ks) c0)))) := hx
          rw [List.mem_insertIdx hset] at hx2
          rcases hx2 with rfl | hx2
          · exact hsplit.2.1
          · rcases List.mem_or_eq_of_mem_set hx2 with hx2 | rfl
            · exact (Uniform_elim hu).1 x hx2
            · exact hsplit.1
        · intro x hx c2x hc2x
          rw [hH2 x hx, hH2 c2x hc2x]
      · rw [heightOf_ne_nil _ _ (heightOf c0) ?_ hH2, heightOf_cons]
        apply List.ne_nil_of_length_pos
        have := length_le_insertIdx
          (splitRightNode M (insGo M k ((c0 :: cs).getD (idxFor k ks) c0)))
          (idxFor k ks + 1)
          ((c0 :: cs).set (idxFor k ks)
            (splitLeftNode M (insGo M k ((c0 :: cs).getD (idxFor k ks) c0))))
        simp only [List.length_set, List.length_cons] at this
        omega

theorem mk_keys_children (n : BTreeNode) :
    BTreeNode.mk n.keys n.children = n := by
  rcases n with ⟨ks, cs⟩
  rfl

theorem insGo_leaf (M : Nat) (k : Int) (ks : List Int) :
    insGo M k (.mk ks []) = .mk (ks.insertIdx (idxFor k ks) k) [] := by
  rw [insGo]

theorem insGo_zero (M : Nat) (k : Int) (keys : List Int) (c0 : BTreeNode)
    (cs : List BTreeNode) (h : idxFor k keys = 0) :
    insGo M k (.mk keys (c0 :: cs)) =
      if (insGo M k c0).keys.length ≤ M - 1 then .mk keys (insGo M k c0 :: cs)
      else .mk ((insGo M k c0).keys.getD ((M - 1) / 2) 0 :: keys)
        (splitLeftNode M (insGo M k c0) :: splitRightNode M (insGo M k c0) :: cs) := by
  rw [insGo]
  dsimp only
  rw [h]
  rw [List.getD_cons_zero]
  split_ifs with hcc
  · rw [List.set_cons_zero]
  · rw [List.set_cons_zero, List.insertIdx_zero, List.insertIdx_succ_cons,
      List.insertIdx_zero, splitLeftNode_def, splitRightNode_def]

theorem insGo_shift (M : Nat) (k k0 : Int) (ks : List Int) (c0 c1 : BTreeNode)
    (cs : List BTreeNode) (hlt : k0 < k) (hj : idxFor k ks < (c1 :: cs).length) :
    insGo M k (.mk (k0 :: ks) (c0 :: c1 :: cs)) =
      .mk (k0 :: (insGo M k (.mk ks (c1 :: cs))).keys)
          (c0 :: (insGo M k (.mk ks (c1 :: cs))).children) := by
  by_cases hc : (insGo M k ((c1 :: cs).getD (idxFor k ks) c1)).keys.length ≤ M - 1
  · conv_lhs => rw [insGo]
    conv_rhs => rw [insGo]
    dsimp only
    rw [idxFor_cons_lt ks hlt, List.getD_cons_succ, getD_irrel _ _ c0 c1 hj,
      if_pos hc, if_pos hc, List.set_cons_succ]
    simp
  · conv_lhs => rw [insGo]
    conv_rhs => rw [insGo]
    dsimp only
    rw [idxFor_cons_lt ks hlt, List.getD_cons_succ, getD_irrel _ _ c0 c1 hj,
      if_neg hc, if_neg hc, List.insertIdx_succ_cons, List.set_cons_succ,
      List.insertIdx_succ_cons]
    simp

/-- Splitting a node at key index `m` cuts its traversal around `keys[m]`. -/
theorem split_trav (d : BTreeNode) (hst : Struct d) (m : Nat)
    (hm : m < d.keys.length) :
    (BTreeNode.mk (d.keys.take m) (d.children.take (m + 1))).traverse_inorder
      ++ d.keys.getD m 0 ::
        (BTreeNode.mk (d.keys.drop (m + 1)) (d.children.drop (m + 1))).traverse_inorder
    = d.traverse_inorder := by
  rcases d with ⟨dk, dc⟩
  simp only [BTreeNode.keys_mk, BTreeNode.children_mk] at hm ⊢
  have hdk : dk = dk.take m ++ dk.getD m 0 :: dk.drop (m + 1) := by
    rw [List.getD_eq_getElem _ _ hm]
    conv_lhs => rw [← List.take_append_drop m dk]
    rw [List.drop_eq_getElem_cons hm]
  rcases (Struct_elim hst).1 with hdc | hdc
  · simp only [BTreeNode.children_mk] at hdc
    subst hdc
    simp only [List.take_nil, List.drop_nil]
    rw [trav_leaf, trav_leaf, trav_leaf]
    exact hdk.symm
  · simp only [BTreeNode.children_mk, BTreeNode.keys_mk] at hdc
    conv_rhs => rw [hdk, ← List.take_append_drop (m + 1) dc]
    rw [trav_append _ _ _ _ _ ?_ ?_]
    · rw [List.length_take, List.length_take]
      omega
    · rw [List.length_drop, List.length_drop]
      omega

theorem struct_tail {k0 : Int} {ks : List Int} {c0 c1 : BTreeNode}
    {cs' : List BTreeNode} (hst : Struct (.mk (k0 :: ks) (c0 :: c1 :: cs'))) :
    Struct (.mk ks (c1 :: cs')) := by
  rw [Struct_mk] at hst ⊢
  refine ⟨Or.inr ?_, fun c hc => hst.2 c (List.mem_cons_of_mem c0 hc)⟩
  rcases hst.1 with h | h
  · exact absurd h (by simp)
  · simpa using h

/-- The traversal of the upward-fixed insertion result is the flat sorted
insertion into the node's traversal. -/
theorem insGo_trav (M : Nat) (k : Int) : ∀ n, Struct n →
    List.Pairwise (· < ·) n.traverse_inorder →
    (insGo M k n).traverse_inorder = sortedIns k n.traverse_inorder := by
  refine node_strong_ind _ ?_
  intro n IH hst hsort
  rcases n with ⟨keys, children⟩
  cases children with
  | nil =>
    rw [insGo_leaf, trav_leaf, trav_leaf, insertIdx_idxFor]
  | cons c0 cs =>
    have hlen : (c0 :: cs).length = keys.length + 1 := by
      rcases (Struct_elim hst).1 with h | h
      · exact absurd h (by simp)
      · exact h
    have hstc0 : Struct c0 := (Struct_elim hst).2 c0 (List.mem_cons_self c0 cs)
    have hszc0 : sizeOf c0 < sizeOf (BTreeNode.mk keys (c0 :: cs)) :=
      sizeOf_mem_children_lt (List.mem_cons_self c0 cs)
    cases keys with
    | nil =>
      have hcs : cs = [] := by
        cases cs with
        | nil => rfl
        | cons a l =>
          simp only [List.length_cons, List.length_nil] at hlen
          omega
      subst hcs
      rw [trav_last] at hsort ⊢
      rw [insGo_zero M k [] c0 [] (idxFor_nil k)]
      have hip := IH c0 hszc0 hstc0 hsort
      split
      · rw [trav_last]
        exact hip
      · rename_i hc
        rw [trav_cons, trav_last, splitLeftNode_def, splitRightNode_def]
        have hsp := split_trav (insGo M k c0) (insGo_struct M k c0 hstc0)
          ((M - 1) / 2) (by omega)
        rw [hsp, hip]
    | cons k0 ks =>
      cases cs with
      | nil =>
        simp only [List.length_cons, List.length_nil] at hlen
        omega
      | cons c1 cs' =>
        have hstv : Struct (.mk ks (c1 :: cs')) := struct_tail hst
        have hszv : sizeOf (BTreeNode.mk ks (c1 :: cs'))
            < sizeOf (BTreeNode.mk (k0 :: ks) (c0 :: c1 :: cs')) := by
          simp only [BTreeNode.mk.sizeOf_spec, List.cons.sizeOf_spec]
          omega
        rw [trav_cons] at hsort
        have hdec := List.pairwise_append.mp hsort
        have hcross := hdec.2.2
        have hpwv : List.Pairwise (· < ·)
            (BTreeNode.mk ks (c1 :: cs')).traverse_inorder :=
          List.Pairwise.of_cons hdec.2.1
        have hk0v : ∀ b ∈ (BTreeNode.mk ks (c1 :: cs')).traverse_inorder, k0 < b :=
          fun b hb => (List.pairwise_cons.mp hdec.2.1).1 b hb
        by_cases hk0 : k0 < k
        · rw [insGo_shift M k k0 ks c0 c1 cs' hk0
            (by
              have hle := idxFor_le k ks
              simp only [List.length_cons] at hlen ⊢
              omega)]
          rw [trav_cons2 k0 _ c0 _ (insGo_children_ne_nil M k ks c1 cs'),
            mk_keys_children]
          rw [IH (BTreeNode.mk ks (c1 :: cs')) hszv hstv hpwv]
          rw [trav_cons]
          rw [show c0.traverse_inorder
                ++ k0 :: (BTreeNode.mk ks (c1 :: cs')).traverse_inorder
              = (c0.traverse_inorder ++ [k0])
                ++ (BTreeNode.mk ks (c1 :: cs')).traverse_inorder by simp]
          rw [sortedIns_append_left _ (by
            intro a ha
            rcases List.mem_append.mp ha with ha | ha
            · exact lt_trans (hcross a ha k0 (List.mem_cons_self _ _)) hk0
            · rcases List.mem_singleton.mp ha with rfl
              exact hk0)]
          simp
        · have hB : ∀ b ∈ k0 :: (BTreeNode.mk ks (c1 :: cs')).traverse_inorder,
              ¬ b < k := by
            intro b hb
            rcases List.mem_cons.mp hb with rfl | hb
            · exact hk0
            · intro hbk
              exact hk0 (lt_trans (hk0v b hb) hbk)
          rw [insGo_zero M k (k0 :: ks) c0 (c1 :: cs') (idxFor_cons_ge ks hk0)]
          have hip := IH c0 hszc0 hstc0 hdec.1
          split
          · rw [trav_cons, hip, trav_cons, sortedIns_append_right _ hB]
          · rename_i hc
            rw [trav_cons, trav_cons, splitLeftNode_def, splitRightNode_def]
            have hsp := split_trav (insGo M k c0) (insGo_struct M k c0 hstc0)
              ((M - 1) / 2) (by omega)
            rw [show (BTreeNode.mk ((insGo M k c0).keys.take ((M - 1) / 2))
                  ((insGo M k c0).children.take ((M - 1) / 2 + 1))).traverse_inorder
                ++ (insGo M k c0).keys.getD ((M - 1) / 2) 0 ::
                  ((BTreeNode.mk ((insGo M k c0).keys.drop ((M - 1) / 2 + 1))
                    ((insGo M k c0).children.drop ((M - 1) / 2 + 1))).traverse_inorder
                  ++ k0 :: (BTreeNode.mk ks (c1 :: cs')).traverse_inorder)
              = ((BTreeNode.mk ((insGo M k c0).keys.take ((M - 1) / 2))
                  ((insGo M k c0).children.take ((M - 1) / 2 + 1))).traverse_inorder
                ++ (insGo M k c0).keys.getD ((M - 1) / 2) 0 ::
                  (BTreeNode.mk ((insGo M k c0).keys.drop ((M - 1) / 2 + 1))
                    ((insGo M k c0).children.drop ((M - 1) / 2 + 1))).traverse_inorder)
                ++ k0 :: (BTreeNode.mk ks (c1 :: cs')).traverse_inorder by
              simp [List.append_assoc]]
            rw [hsp, hip, trav_cons, sortedIns_append_right _ hB]

theorem btrav_none (M : Nat) : BTree.traverse_inorder ⟨M, none⟩ = [] := rfl

theorem btrav_some (M : Nat) (r : BTreeNode) :
    BTree.traverse_inorder ⟨M, some r⟩ = r.traverse_inorder := rfl

theorem Valid_intro (M : Nat) (r : BTreeNode) (h3 : 3 ≤ M) (h1 : Struct r)
    (h2 : Uniform r) (h4 : List.Pairwise (· < ·) r.traverse_inorder)
    (h5 : RootOk M r) : Valid ⟨M, some r⟩ :=
  ⟨h3, h1, h2, h4, h5⟩

theorem Valid_elim (M : Nat) (r : BTreeNode) (h : Valid ⟨M, some r⟩) :
    3 ≤ M ∧ Struct r ∧ Uniform r ∧
      List.Pairwise (· < ·) r.traverse_inorder ∧ RootOk M r :=
  h

/-- The two split halves satisfy the children/keys count relation. -/
theorem split_struct (M : Nat) (d : BTreeNode) (hd : Struct d)
    (hmid : (M - 1) / 2 < d.keys.length) :
    Struct (splitLeftNode M d) ∧ Struct (splitRightNode M d) := by
  rcases d with ⟨dk, dc⟩
  simp only [BTreeNode.keys_mk] at hmid
  rw [Struct_mk] at hd
  rw [splitLeftNode_def, splitRightNode_def]
  simp only [BTreeNode.keys_mk, BTreeNode.children_mk]
  constructor
  · rw [Struct_mk]
    constructor
    · rcases hd.1 with h | h
      · subst h
        simp
      · right
        rw [List.length_take, List.length_take]
        omega
    · intro c hc
      exact hd.2 c (List.mem_of_mem_take hc)
  · rw [Struct_mk]
    constructor
    · rcases hd.1 with h | h
      · subst h
        simp
      · right
        rw [List.length_drop, List.length_drop]
        omega
    · intro c hc
      exact hd.2 c (List.mem_of_mem_drop hc)

/-- Splitting a full (`M` keys) node leaves both halves within the
occupancy bounds. -/
theorem split_subOk (M : Nat) (d : BTreeNode)
    (hc : ∀ c ∈ d.children, SubOk M c) (hlen : d.keys.length = M)
    (hM : 3 ≤ M) :
    SubOk M (splitLeftNode M d) ∧ SubOk M (splitRightNode M d) := by
  rcases d with ⟨dk, dc⟩
  simp only [BTreeNode.keys_mk, BTreeNode.children_mk] at hc hlen
  rw [splitLeftNode_def, splitRightNode_def]
  simp only [BTreeNode.keys_mk, BTreeNode.children_mk]
  constructor
  · refine SubOk_intro ?_ ?_ ?_
    · simp only [BTreeNode.keys_mk, List.length_take]
      omega
    · simp only [BTreeNode.keys_mk, List.length_take]
      omega
    · simp only [BTreeNode.children_mk]
      intro c hcc
      exact hc c (List.mem_of_mem_take hcc)
  · refine SubOk_intro ?_ ?_ ?_
    · simp only [BTreeNode.keys_mk, List.length_drop]
      omega
    · simp only [BTreeNode.keys_mk, List.length_drop]
      omega
    · simp only [BTreeNode.children_mk]
      intro c hcc
      exact hc c (List.mem_of_mem_drop hcc)

/-- `insert` (lines 139-170, with `__fix_insert` lines 172-221) preserves
the invariant and performs a sorted insertion on the flat key sequence. -/
theorem insert_valid (t : BTree) (k : Int) (hv : Valid t)
    (hk : k ∉ t.traverse_inorder) :
    Valid (t.insert k) ∧
      (t.insert k).traverse_inorder = sortedIns k t.traverse_inorder := by
  obtain ⟨M, root⟩ := t
  obtain ⟨h3, hroot⟩ := hv
  cases root with
  | none =>
    have h3' : 3 ≤ M := h3
    constructor
    · exact Valid_intro M _ h3'
        (by rw [Struct_mk]; exact ⟨Or.inl rfl, by simp⟩)
        (by rw [Uniform_mk]; simp)
        (by rw [trav_leaf]; simp)
        ⟨by simp only [BTreeNode.keys_mk, List.length_cons, List.length_nil]; omega,
          by simp, by simp⟩
    · show BTree.traverse_inorder ⟨M, some (.mk [k] [])⟩
        = sortedIns k (BTree.traverse_inorder ⟨M, none⟩)
      rw [btrav_some, btrav_none, trav_leaf, sortedIns_nil]
  | some r =>
    obtain ⟨hst, hun, hpw, hro⟩ := hroot
    obtain ⟨hle, hne1, hsub⟩ := hro
    have h3' : 3 ≤ M := h3
    have htrav2 := insGo_trav M k r hst hpw
    have hst2 := insGo_struct M k r hst
    have hocc := insGo_occ M k h3' r hst hle hsub
    have huni := insGo_uniform M k h3' r hst hun hsub
    have hk' : k ∉ r.traverse_inorder := hk
    have hpw2 : List.Pairwise (· < ·) (insGo M k r).traverse_inorder := by
      rw [htrav2]
      exact pairwise_sortedIns hpw hk'
    have hins : BTree.insert ⟨M, some r⟩ k
        = if (insGo M k r).keys.length ≤ M - 1
          then (⟨M, some (insGo M k r)⟩ : BTree)
          else ⟨M, some (.mk [(insGo M k r).keys.getD ((M - 1) / 2) 0]
            [splitLeftNode M (insGo M k r), splitRightNode M (insGo M k r)])⟩ := by
      rw [BTree.insert]
      rfl
    rw [hins]
    split_ifs with hsmall
    · refine ⟨Valid_intro M _ h3' hst2 huni.1 hpw2 ⟨hsmall, ?_, hocc.2⟩, ?_⟩
      · intro hne
        rcases r with ⟨rk, rc⟩
        cases rc with
        | nil =>
          rw [insGo_leaf] at hne
          simp at hne
        | cons c0 cs =>
          have h1 := hne1 (by simp)
          have h2 := (insGo_keys_len M k (.mk rk (c0 :: cs))).1
          simp only [BTreeNode.keys_mk] at h1 h2
          omega
      · rw [btrav_some, btrav_some, htrav2]
    · have hstM : (insGo M k r).keys.length = M := by
        have := hocc.1
        omega
      have hmid : (M - 1) / 2 < (insGo M k r).keys.length := by omega
      have hsplit := split_trav (insGo M k r) hst2 ((M - 1) / 2) hmid
      have hstruct := split_struct M (insGo M k r) hst2 hmid
      have hsub2 := split_subOk M (insGo M k r) hocc.2 hstM h3'
      have hchildlen : (insGo M k r).children = []
          ∨ (M - 1) / 2 + 1 < (insGo M k r).children.length := by
        rcases (Struct_elim hst2).1 with h | h
        · exact Or.inl h
        · right
          omega
      have huni2 := split_uniform M (insGo M k r) huni.1 hchildlen
      have hh : ∀ c ∈ [splitLeftNode M (insGo M k r),
          splitRightNode M (insGo M k r)],
          heightOf c = heightOf (insGo M k r) := by
        intro c hcm
        rcases List.mem_cons.mp hcm with rfl | hcm
        · exact huni2.2.2.1
        · rcases List.mem_cons.mp hcm with rfl | hcm
          · exact huni2.2.2.2
          · simp at hcm
      refine ⟨Valid_intro M _ h3' ?_ ?_ ?_ ?_, ?_⟩
      · rw [Struct_mk]
        refine ⟨Or.inr (by simp), ?_⟩
        intro c hcm
        rcases List.mem_cons.mp hcm with rfl | hcm
        · exact hstruct.1
        · rcases List.mem_cons.mp hcm with rfl | hcm
          · exact hstruct.2
          · simp at hcm
      · rw [Uniform_mk]
        constructor
        · intro c hcm
          rcases List.mem_cons.mp hcm with rfl | hcm
          · exact huni2.1
          · rcases List.mem_cons.mp hcm with rfl | hcm
            · exact huni2.2.1
            · simp at hcm
        · intro c hcm c2 hcm2
          rw [hh c hcm, hh c2 hcm2]
      · rw [trav_cons, trav_last, splitLeftNode_def, splitRightNode_def, hsplit]
        exact hpw2
      · refine ⟨?_, ?_, ?_⟩
        · simp only [BTreeNode.keys_mk, List.length_cons, List.length_nil]
          omega
        · intro _
          simp
        · intro c hcm
          rcases List.mem_cons.mp hcm with rfl | hcm
          · exact hsub2.1
          · rcases List.mem_cons.mp hcm with rfl | hcm
            · exact hsub2.2
            · simp at hcm
      · rw [btrav_some, btrav_some, trav_cons, trav_last, splitLeftNode_def,
          splitRightNode_def, hsplit, htrav2]

theorem glueNode_def (s : Int) (L c : BTreeNode) :
    glueNode s L c = .mk (L.keys ++ [s] ++ c.keys) (L.children ++ c.children) :=
  rfl

theorem glueMid_def (s : Int) (L c : BTreeNode) :
    glueMid s L c = (L.keys ++ [s] ++ c.keys).length / 2 := rfl

theorem cutLeft_def (m : Nat) (d : BTreeNode) :
    cutLeft m d = .mk (d.keys.take m) (d.children.take (m + 1)) := rfl

theorem cutRight_def (m : Nat) (d : BTreeNode) :
    cutRight m d = .mk (d.keys.drop (m + 1)) (d.children.drop (m + 1)) := rfl

theorem children_nil_iff_height (d : BTreeNode) :
    d.children = [] ↔ heightOf d = 0 := by
  rcases d with ⟨ks, cs⟩
  cases cs with
  | nil => simp [heightOf_leaf]
  | cons c0 cs' =>
    rw [heightOf_cons]
    simp

theorem heightOf_getD0 (ks : List Int) (l : List BTreeNode) (hne : l ≠ []) :
    heightOf (.mk ks l) = heightOf (l.getD 0 (.mk [] [])) + 1 := by
  cases l with
  | nil => exact absurd rfl hne
  | cons c0 cs => rw [heightOf_cons, List.getD_cons_zero]

/-- Cutting a node at any key index `m` keeps the children/keys count
relation in both halves. -/
theorem cut_struct (d : BTreeNode) (hd : Struct d) (m : Nat)
    (hm : m < d.keys.length) :
    Struct (cutLeft m d) ∧ Struct (cutRight m d) := by
  rcases d with ⟨dk, dc⟩
  rw [cutLeft_def, cutRight_def]
  simp only [BTreeNode.keys_mk, BTreeNode.children_mk] at hm ⊢
  rw [Struct_mk] at hd
  constructor
  · rw [Struct_mk]
    constructor
    · rcases hd.1 with h | h
      · subst h
        simp
      · right
        rw [List.length_take, List.length_take]
        omega
    · intro c hc
      exact hd.2 c (List.mem_of_mem_take hc)
  · rw [Struct_mk]
    constructor
    · rcases hd.1 with h | h
      · subst h
        simp
      · right
        rw [List.length_drop, List.length_drop]
        omega
    · intro c hc
      exact hd.2 c (List.mem_of_mem_drop hc)

/-- Cutting a uniform node at any key index keeps both halves uniform and
at the node's height. -/
theorem cut_uniform (d : BTreeNode) (hu : Uniform d) (m : Nat)
    (hmid : d.children = [] ∨ m + 1 < d.children.length) :
    Uniform (cutLeft m d) ∧ Uniform (cutRight m d) ∧
      heightOf (cutLeft m d) = heightOf d ∧
      heightOf (cutRight m d) = heightOf d := by
  rcases d with ⟨dk, dc⟩
  rw [Uniform_mk] at hu
  rw [cutLeft_def, cutRight_def]
  simp only [BTreeNode.keys_mk, BTreeNode.children_mk] at hmid ⊢
  cases dc with
  | nil =>
    simp only [List.take_nil, List.drop_nil]
    refine ⟨?_, ?_, ?_, ?_⟩ <;>
      first
        | rw [heightOf_leaf, heightOf_leaf]
        | (rw [Uniform_mk]; simp)
  | cons d0 ds =>
    have hlt : m + 1 < ds.length + 1 := by
      rcases hmid with h | h
      · simp at h
      · simpa using h
    rw [List.take_succ_cons, List.drop_succ_cons]
    have hmemL : ∀ x ∈ d0 :: List.take m ds, x ∈ d0 :: ds := by
      intro x hx
      rcases List.mem_cons.mp hx with rfl | hx
      · exact List.mem_cons_self x ds
      · exact List.mem_cons_of_mem d0 (List.mem_of_mem_take hx)
    have hdropne : ds.drop m ≠ [] := by
      apply List.ne_nil_of_length_pos
      rw [List.length_drop]
      omega
    have hdrop_height : ∀ x ∈ ds.drop m, heightOf x = heightOf d0 := by
      intro x hx
      exact hu.2 x (List.mem_cons_of_mem d0 (List.mem_of_mem_drop hx)) d0
        (List.mem_cons_self d0 ds)
    refine ⟨?_, ?_, ?_, ?_⟩
    · rw [Uniform_mk]
      exact ⟨fun c hc => hu.1 c (hmemL c hc),
        fun c hc c2 hc2 => hu.2 c (hmemL c hc) c2 (hmemL c2 hc2)⟩
    · rw [Uniform_mk]
      constructor
      · intro c hc
        exact hu.1 c (List.mem_cons_of_mem d0 (List.mem_of_mem_drop hc))
      · intro c hc c2 hc2
        rw [hdrop_height c hc, hdrop_height c2 hc2]
    · rw [heightOf_cons, heightOf_cons]
    · rw [heightOf_ne_nil _ _ (heightOf d0) hdropne hdrop_height, heightOf_cons]

/-- Gluing two same-height well-formed siblings around a separator gives a
well-formed node at the same height whose traversal is the two traversals
around the separator. -/
theorem glue_spec (s : Int) (L c : BTreeNode) (hL : Struct L) (hc : Struct c)
    (hLu : Uniform L) (hcu : Uniform c) (hh : heightOf L = heightOf c) :
    Struct (glueNode s L c) ∧ Uniform (glueNode s L c) ∧
      heightOf (glueNode s L c) = heightOf L ∧
      (glueNode s L c).traverse_inorder
        = L.traverse_inorder ++ s :: c.traverse_inorder := by
  rw [glueNode_def]
  rcases L with ⟨lk, lc⟩
  rcases c with ⟨ck, cc⟩
  simp only [BTreeNode.keys_mk, BTreeNode.children_mk]
  cases lc with
  | nil =>
    cases cc with
    | cons e0 es =>
      rw [heightOf_leaf, heightOf_cons] at hh
      omega
    | nil =>
      simp only [List.nil_append]
      refine ⟨?_, ?_, ?_, ?_⟩
      · rw [Struct_mk]
        exact ⟨Or.inl rfl, by simp⟩
      · rw [Uniform_mk]
        simp
      · rw [heightOf_leaf, heightOf_leaf]
      · rw [trav_leaf, trav_leaf, trav_leaf]
        simp
  | cons l0 ls =>
    cases cc with
    | nil =>
      rw [heightOf_leaf, heightOf_cons] at hh
      omega
    | cons e0 es =>
      rw [Struct_mk] at hL hc
      rw [Uniform_mk] at hLu hcu
      rcases hL.1 with h | h
      · exact absurd h (by simp)
      rcases hc.1 with h2 | h2
      · exact absurd h2 (by simp)
      have hht : ∀ x ∈ (l0 :: ls) ++ e0 :: es, heightOf x = heightOf l0 := by
        intro x hx
        rcases List.mem_append.mp hx with hx | hx
        · exact hLu.2 x hx l0 (List.mem_cons_self l0 ls)
        · rw [heightOf_cons, heightOf_cons] at hh
          rw [hcu.2 x hx e0 (List.mem_cons_self e0 es)]
          omega
      refine ⟨?_, ?_, ?_, ?_⟩
      · rw [Struct_mk]
        constructor
        · right
          simp only [List.length_append, List.length_cons, List.length_nil]
            at h h2 ⊢
          omega
        · intro x hx
          rcases List.mem_append.mp hx with hx | hx
          · exact hL.2 x hx
          · exact hc.2 x hx
      · rw [Uniform_mk]
        constructor
        · intro x hx
          rcases List.mem_append.mp hx with hx | hx
          · exact hLu.1 x hx
          · exact hcu.1 x hx
        · intro x hx y hy
          rw [hht x hx, hht y hy]
      · rw [List.cons_append, heightOf_cons, heightOf_cons]
      · rw [show lk ++ [s] ++ ck = lk ++ s :: ck by simp]
        exact trav_append s lk (l0 :: ls) ck (e0 :: es) h h2

/-- A redistribution step (lines 295-336): glue the two siblings around
the separator and cut at `len // 2`.  Both halves are well formed, keep
the height, and respect the occupancy bounds; the two traversals around
the new separator reproduce the old ones around the old separator. -/
theorem redistribute_spec (M : Nat) (hM : 3 ≤ M) (s : Int) (L c : BTreeNode)
    (hL : Struct L) (hc : Struct c) (hLu : Uniform L) (hcu : Uniform c)
    (hh : heightOf L = heightOf c)
    (hLsub : ∀ x ∈ L.children, SubOk M x)
    (hcsub : ∀ x ∈ c.children, SubOk M x)
    (hbig : 2 * ((M - 1) / 2) + 1 ≤ L.keys.length + c.keys.length + 1)
    (htop : L.keys.length + c.keys.length + 1 ≤ 2 * M - 1) :
    Struct (cutLeft (glueMid s L c) (glueNode s L c)) ∧
      Struct (cutRight (glueMid s L c) (glueNode s L c)) ∧
      Uniform (cutLeft (glueMid s L c) (glueNode s L c)) ∧
      Uniform (cutRight (glueMid s L c) (glueNode s L c)) ∧
      heightOf (cutLeft (glueMid s L c) (glueNode s L c)) = heightOf L ∧
      heightOf (cutRight (glueMid s L c) (glueNode s L c)) = heightOf L ∧
      SubOk M (cutLeft (glueMid s L c) (glueNode s L c)) ∧
      SubOk M (cutRight (glueMid s L c) (glueNode s L c)) ∧
      (cutLeft (glueMid s L c) (glueNode s L c)).traverse_inorder
          ++ (glueNode s L c).keys.getD (glueMid s L c) 0 ::
            (cutRight (glueMid s L c) (glueNode s L c)).traverse_inorder
        = L.traverse_inorder ++ s :: c.traverse_inorder := by
  obtain ⟨hgs, hgu, hgh, hgt⟩ := glue_spec s L c hL hc hLu hcu hh
  have hklen : (glueNode s L c).keys.length
      = L.keys.length + c.keys.length + 1 := by
    rw [glueNode_def]
    simp only [BTreeNode.keys_mk, List.length_append, List.length_cons,
      List.length_nil]
    omega
  have hmeq : glueMid s L c = (L.keys.length + c.keys.length + 1) / 2 := by
    rw [glueMid_def]
    simp only [List.length_append, List.length_cons, List.length_nil]
    omega
  have hmlt : glueMid s L c < (glueNode s L c).keys.length := by
    rw [hmeq, hklen]
    omega
  obtain ⟨hstL, hstR⟩ := cut_struct (glueNode s L c) hgs (glueMid s L c) hmlt
  have hchil : (glueNode s L c).children = []
      ∨ glueMid s L c + 1 < (glueNode s L c).children.length := by
    rcases (Struct_elim hgs).1 with hch | hch
    · exact Or.inl hch
    · right
      rw [hch, hklen, hmeq]
      omega
  obtain ⟨huL, huR, hhL, hhR⟩ :=
    cut_uniform (glueNode s L c) hgu (glueMid s L c) hchil
  have hsp := split_trav (glueNode s L c) hgs (glueMid s L c) hmlt
  rw [← cutLeft_def, ← cutRight_def] at hsp
  have hmemg : ∀ x ∈ (glueNode s L c).children, SubOk M x := by
    rw [glueNode_def]
    simp only [BTreeNode.children_mk]
    intro x hx
    rcases List.mem_append.mp hx with hx | hx
    · exact hLsub x hx
    · exact hcsub x hx
  refine ⟨hstL, hstR, huL, huR, hhL.trans hgh, hhR.trans hgh, ?_, ?_,
    by rw [hsp, hgt]⟩
  · refine SubOk_intro ?_ ?_ ?_
    · rw [cutLeft_def]
      simp only [BTreeNode.keys_mk, List.length_take]
      omega
    · rw [cutLeft_def]
      simp only [BTreeNode.keys_mk, List.length_take]
      omega
    · rw [cutLeft_def]
      simp only [BTreeNode.children_mk]
      intro x hx
      exact hmemg x (List.mem_of_mem_take hx)
  · refine SubOk_intro ?_ ?_ ?_
    · rw [cutRight_def]
      simp only [BTreeNode.keys_mk, List.length_drop]
      omega
    · rw [cutRight_def]
      simp only [BTreeNode.keys_mk, List.length_drop]
      omega
    · rw [cutRight_def]
      simp only [BTreeNode.children_mk]
      intro x hx
      exact hmemg x (List.mem_of_mem_drop hx)

/-- The merge of two siblings and their separator stays within the
occupancy bounds when the key counts allow it. -/
theorem merge_subOk (M : Nat) (s : Int) (L c : BTreeNode)
    (hLsub : ∀ x ∈ L.children, SubOk M x)
    (hcsub : ∀ x ∈ c.children, SubOk M x)
    (hlo : (M - 1) / 2 ≤ L.keys.length + c.keys.length + 1)
    (hhi : L.keys.length + c.keys.length + 1 ≤ M - 1) :
    SubOk M (glueNode s L c) := by
  refine SubOk_intro ?_ ?_ ?_
  · rw [glueNode_def]
    simp only [BTreeNode.keys_mk, List.length_append, List.length_cons,
      List.length_nil]
    omega
  · rw [glueNode_def]
    simp only [BTreeNode.keys_mk, List.length_append, List.length_cons,
      List.length_nil]
    omega
  · rw [glueNode_def]
    simp only [BTreeNode.children_mk]
    intro x hx
    rcases List.mem_append.mp hx with hx | hx
    · exact hLsub x hx
    · exact hcsub x hx

theorem fixChild_stop (M : Nat) (keys : List Int) (c0 : BTreeNode)
    (cs : List BTreeNode) (i : Nat)
    (h : ¬ isUnderflowing M ((c0 :: cs).getD i c0) = true) :
    fixChild M (.mk keys (c0 :: cs)) i = .mk keys (c0 :: cs) := by
  rw [fixChild]
  dsimp only
  rw [if_pos h]

theorem fixChild_redisL (M : Nat) (keys : List Int) (c0 : BTreeNode)
    (cs : List BTreeNode) (i : Nat)
    (h0 : isUnderflowing M ((c0 :: cs).getD i c0) = true)
    (h1 : i ≠ 0) (h2 : isPopulous M ((c0 :: cs).getD (i - 1) c0) = true) :
    fixChild M (.mk keys (c0 :: cs)) i =
      .mk (keys.set (i - 1)
          ((glueNode (keys.getD (i - 1) 0) ((c0 :: cs).getD (i - 1) c0)
              ((c0 :: cs).getD i c0)).keys.getD
            (glueMid (keys.getD (i - 1) 0) ((c0 :: cs).getD (i - 1) c0)
              ((c0 :: cs).getD i c0)) 0))
        (((c0 :: cs).set (i - 1)
            (cutLeft
              (glueMid (keys.getD (i - 1) 0) ((c0 :: cs).getD (i - 1) c0)
                ((c0 :: cs).getD i c0))
              (glueNode (keys.getD (i - 1) 0) ((c0 :: cs).getD (i - 1) c0)
                ((c0 :: cs).getD i c0)))).set i
          (cutRight
            (glueMid (keys.getD (i - 1) 0) ((c0 :: cs).getD (i - 1) c0)
              ((c0 :: cs).getD i c0))
            (glueNode (keys.getD (i - 1) 0) ((c0 :: cs).getD (i - 1) c0)
              ((c0 :: cs).getD i c0)))) := by
  rw [fixChild]
  dsimp only
  rw [if_neg (not_not_intro h0), if_pos ⟨h1, h2⟩]
  rfl

theorem fixChild_redisR (M : Nat) (keys : List Int) (c0 : BTreeNode)
    (cs : List BTreeNode) (i : Nat)
    (h0 : isUnderflowing M ((c0 :: cs).getD i c0) = true)
    (hn1 : ¬ (i ≠ 0 ∧ isPopulous M ((c0 :: cs).getD (i - 1) c0) = true))
    (h2 : i ≠ (c0 :: cs).length - 1)
    (h3 : isPopulous M ((c0 :: cs).getD (i + 1) c0) = true) :
    fixChild M (.mk keys (c0 :: cs)) i =
      .mk (keys.set i
          ((glueNode (keys.getD i 0) ((c0 :: cs).getD i c0)
              ((c0 :: cs).getD (i + 1) c0)).keys.getD
            (glueMid (keys.getD i 0) ((c0 :: cs).getD i c0)
              ((c0 :: cs).getD (i + 1) c0)) 0))
        (((c0 :: cs).set i
            (cutLeft
              (glueMid (keys.getD i 0) ((c0 :: cs).getD i c0)
                ((c0 :: cs).getD (i + 1) c0))
              (glueNode (keys.getD i 0) ((c0 :: cs).getD i c0)
                ((c0 :: cs).getD (i + 1) c0)))).set (i + 1)
          (cutRight
            (glueMid (keys.getD i 0) ((c0 :: cs).getD i c0)
              ((c0 :: cs).getD (i + 1) c0))
            (glueNode (keys.getD i 0) ((c0 :: cs).getD i c0)
              ((c0 :: cs).getD (i + 1) c0)))) := by
  rw [fixChild]
  dsimp only
  rw [if_neg (not_not_intro h0), if_neg hn1, if_pos ⟨h2, h3⟩]
  rfl

theorem fixChild_mergeL (M : Nat) (keys : List Int) (c0 : BTreeNode)
    (cs : List BTreeNode) (i : Nat)
    (h0 : isUnderflowing M ((c0 :: cs).getD i c0) = true)
    (hn1 : ¬ (i ≠ 0 ∧ isPopulous M ((c0 :: cs).getD (i - 1) c0) = true))
    (hn2 : ¬ (i ≠ (c0 :: cs).length - 1
      ∧ isPopulous M ((c0 :: cs).getD (i + 1) c0) = true))
    (h3 : i = (c0 :: cs).length - 1) :
    fixChild M (.mk keys (c0 :: cs)) i =
      .mk (keys.eraseIdx (i - 1))
        (((c0 :: cs).set (i - 1)
            (glueNode (keys.getD (i - 1) 0) ((c0 :: cs).getD (i - 1) c0)
              ((c0 :: cs).getD i c0))).eraseIdx i) := by
  rw [fixChild]
  dsimp only
  rw [if_neg (not_not_intro h0), if_neg hn1, if_neg hn2, if_pos h3]
  rfl

theorem fixChild_mergeR (M : Nat) (keys : List Int) (c0 : BTreeNode)
    (cs : List BTreeNode) (i : Nat)
    (h0 : isUnderflowing M ((c0 :: cs).getD i c0) = true)
    (hn1 : ¬ (i ≠ 0 ∧ isPopulous M ((c0 :: cs).getD (i - 1) c0) = true))
    (hn2 : ¬ (i ≠ (c0 :: cs).length - 1
      ∧ isPopulous M ((c0 :: cs).getD (i + 1) c0) = true))
    (h3 : i ≠ (c0 :: cs).length - 1) :
    fixChild M (.mk keys (c0 :: cs)) i =
      .mk (keys.eraseIdx i)
        (((c0 :: cs).set i
            (glueNode (keys.getD i 0) ((c0 :: cs).getD i c0)
              ((c0 :: cs).getD (i + 1) c0))).eraseIdx (i + 1)) := by
  rw [fixChild]
  dsimp only
  rw [if_neg (not_not_intro h0), if_neg hn1, if_neg hn2, if_neg h3]
  rfl

/-- Writing a repaired pair of siblings (and their new separator) back
into slots `j`, `j+1` of the parent preserves the parent's shape,
traversal, height and the children's occupancy. -/
theorem pairset_spec (M : Nat) (keys : List Int) (ch : List BTreeNode)
    (j : Nat) (hj : j + 1 < ch.length) (hlen : ch.length = keys.length + 1)
    (hstc : ∀ x ∈ ch, Struct x) (hunic : ∀ x ∈ ch, Uniform x)
    (hhts : ∀ x ∈ ch, ∀ y ∈ ch, heightOf x = heightOf y)
    (ns : Int) (CL CR : BTreeNode)
    (hCLs : Struct CL) (hCRs : Struct CR)
    (hCLu : Uniform CL) (hCRu : Uniform CR)
    (hCLh : heightOf CL = heightOf (ch.getD j (.mk [] [])))
    (hCRh : heightOf CR = heightOf (ch.getD j (.mk [] [])))
    (hCLsub : SubOk M CL) (hCRsub : SubOk M CR)
    (htrv : CL.traverse_inorder ++ ns :: CR.traverse_inorder
      = (ch.getD j (.mk [] [])).traverse_inorder
        ++ keys.getD j 0 :: (ch.getD (j + 1) (.mk [] [])).traverse_inorder)
    (hsubs : ∀ l, l < ch.length → l ≠ j → l ≠ j + 1
      → SubOk M (ch.getD l (.mk [] []))) :
    (BTreeNode.mk (keys.set j ns)
        ((ch.set j CL).set (j + 1) CR)).traverse_inorder
      = (BTreeNode.mk keys ch).traverse_inorder ∧
    Struct (.mk (keys.set j ns) ((ch.set j CL).set (j + 1) CR)) ∧
    Uniform (.mk (keys.set j ns) ((ch.set j CL).set (j + 1) CR)) ∧
    heightOf (.mk (keys.set j ns) ((ch.set j CL).set (j + 1) CR))
      = heightOf (.mk keys ch) ∧
    ∀ x ∈ (ch.set j CL).set (j + 1) CR, SubOk M x := by
  obtain ⟨X, Y, horig, hsetf, hmergef⟩ := trav_pair_ctx j keys ch hj hlen
  have hne : ch ≠ [] := List.ne_nil_of_length_pos (by omega)
  have hjlt : j < ch.length := by omega
  have hjmem : ch.getD j (.mk [] []) ∈ ch := by
    rw [List.getD_eq_getElem _ _ hjlt]
    exact List.getElem_mem hjlt
  have hH : ∀ x ∈ (ch.set j CL).set (j + 1) CR,
      heightOf x = heightOf (ch.getD j (.mk [] [])) := by
    intro x hx
    rcases List.mem_or_eq_of_mem_set hx with hx | rfl
    · rcases List.mem_or_eq_of_mem_set hx with hx | rfl
      · exact hhts x hx _ hjmem
      · exact hCLh
    · exact hCRh
  refine ⟨?_, ?_, ?_, ?_, ?_⟩
  · rw [hsetf ns CL CR, htrv, horig]
  · rw [Struct_mk]
    constructor
    · right
      simp only [List.length_set]
      exact hlen
    · intro x hx
      rcases List.mem_or_eq_of_mem_set hx with hx | rfl
      · rcases List.mem_or_eq_of_mem_set hx with hx | rfl
        · exact hstc x hx
        · exact hCLs
      · exact hCRs
  · rw [Uniform_mk]
    constructor
    · intro x hx
      rcases List.mem_or_eq_of_mem_set hx with hx | rfl
      · rcases List.mem_or_eq_of_mem_set hx with hx | rfl
        · exact hunic x hx
        · exact hCLu
      · exact hCRu
    · intro x hx y hy
      rw [hH x hx, hH y hy]
  · have hne2 : (ch.set j CL).set (j + 1) CR ≠ [] := by
      apply List.ne_nil_of_length_pos
      simp only [List.length_set]
      omega
    have h0lt : 0 < ((ch.set j CL).set (j + 1) CR).length := by
      simp only [List.length_set]
      omega
    have h0n : ((ch.set j CL).set (j + 1) CR).getD 0 (.mk [] [])
        ∈ (ch.set j CL).set (j + 1) CR := by
      rw [List.getD_eq_getElem _ _ h0lt]
      exact List.getElem_mem h0lt
    have h0o : ch.getD 0 (.mk [] []) ∈ ch := by
      rw [List.getD_eq_getElem _ _ (by omega)]
      exact List.getElem_mem (by omega)
    rw [heightOf_getD0 _ _ hne2, heightOf_getD0 _ _ hne, hH _ h0n,
      hhts _ h0o _ hjmem]
  · intro x hx
    obtain ⟨l, hl, hget⟩ := List.getElem_of_mem hx
    have hl' : l < ch.length := by
      simp only [List.length_set] at hl
      exact hl
    rw [List.getElem_set, List.getElem_set] at hget
    by_cases hc1 : j + 1 = l
    · rw [if_pos hc1] at hget
      rw [← hget]
      exact hCRsub
    · rw [if_neg hc1] at hget
      by_cases hc2 : j = l
      · rw [if_pos hc2] at hget
        rw [← hget]
        exact hCLsub
      · rw [if_neg hc2] at hget
        have := hsubs l hl' (fun h => hc2 h.symm) (fun h => hc1 h.symm)
        rw [List.getD_eq_getElem _ _ hl'] at this
        rw [← hget]
        exact this

/-- Writing a merged pair back into slot `j` (and erasing slot `j+1` and
the consumed separator) preserves the parent's traversal and height and
keeps all children within bounds; the parent loses exactly one key. -/
theorem pairmerge_spec (M : Nat) (keys : List Int) (ch : List BTreeNode)
    (j : Nat) (hj : j + 1 < ch.length) (hlen : ch.length = keys.length + 1)
    (hstc : ∀ x ∈ ch, Struct x) (hunic : ∀ x ∈ ch, Uniform x)
    (hhts : ∀ x ∈ ch, ∀ y ∈ ch, heightOf x = heightOf y)
    (Mg : BTreeNode) (hMs : Struct Mg) (hMu : Uniform Mg)
    (hMh : heightOf Mg = heightOf (ch.getD j (.mk [] [])))
    (hMsub : SubOk M Mg)
    (htrv : Mg.traverse_inorder
      = (ch.getD j (.mk [] [])).traverse_inorder
        ++ keys.getD j 0 :: (ch.getD (j + 1) (.mk [] [])).traverse_inorder)
    (hsubs : ∀ l, l < ch.length → l ≠ j → l ≠ j + 1
      → SubOk M (ch.getD l (.mk [] []))) :
    (BTreeNode.mk (keys.eraseIdx j)
        ((ch.set j Mg).eraseIdx (j + 1))).traverse_inorder
      = (BTreeNode.mk keys ch).traverse_inorder ∧
    Struct (.mk (keys.eraseIdx j) ((ch.set j Mg).eraseIdx (j + 1))) ∧
    Uniform (.mk (keys.eraseIdx j) ((ch.set j Mg).eraseIdx (j + 1))) ∧
    heightOf (.mk (keys.eraseIdx j) ((ch.set j Mg).eraseIdx (j + 1)))
      = heightOf (.mk keys ch) ∧
    (∀ x ∈ (ch.set j Mg).eraseIdx (j + 1), SubOk M x) ∧
    (keys.eraseIdx j).length + 1 = keys.length ∧
    ((ch.set j Mg).eraseIdx (j + 1)).length + 1 = ch.length := by
  obtain ⟨X, Y, horig, hsetf, hmergef⟩ := trav_pair_ctx j keys ch hj hlen
  have hne : ch ≠ [] := List.ne_nil_of_length_pos (by omega)
  have hjlt : j < ch.length := by omega
  have hjk : j < keys.length := by omega
  have hjmem : ch.getD j (.mk [] []) ∈ ch := by
    rw [List.getD_eq_getElem _ _ hjlt]
    exact List.getElem_mem hjlt
  have hlenE : ((ch.set j Mg).eraseIdx (j + 1)).length + 1 = ch.length := by
    rw [List.length_eraseIdx]
    simp only [List.length_set]
    rw [if_pos hj]
    omega
  have hlenK : (keys.eraseIdx j).length + 1 = keys.length := by
    rw [List.length_eraseIdx, if_pos hjk]
    omega
  have hH : ∀ x ∈ (ch.set j Mg).eraseIdx (j + 1),
      heightOf x = heightOf (ch.getD j (.mk [] [])) := by
    intro x hx
    rcases List.mem_or_eq_of_mem_set (List.mem_of_mem_eraseIdx hx)
        with hx | rfl
    · exact hhts x hx _ hjmem
    · exact hMh
  refine ⟨?_, ?_, ?_, ?_, ?_, hlenK, hlenE⟩
  · rw [hmergef Mg, htrv, horig]
  · rw [Struct_mk]
    constructor
    · right
      omega
    · intro x hx
      rcases List.mem_or_eq_of_mem_set (List.mem_of_mem_eraseIdx hx)
          with hx | rfl
      · exact hstc x hx
      · exact hMs
  · rw [Uniform_mk]
    constructor
    · intro x hx
      rcases List.mem_or_eq_of_mem_set (List.mem_of_mem_eraseIdx hx)
          with hx | rfl
      · exact hunic x hx
      · exact hMu
    · intro x hx y hy
      rw [hH x hx, hH y hy]
  · have hne2 : (ch.set j Mg).eraseIdx (j + 1) ≠ [] := by
      apply List.ne_nil_of_length_pos
      omega
    have h0lt : 0 < ((ch.set j Mg).eraseIdx (j + 1)).length := by omega
    have h0n : ((ch.set j Mg).eraseIdx (j + 1)).getD 0 (.mk [] [])
        ∈ (ch.set j Mg).eraseIdx (j + 1) := by
      rw [List.getD_eq_getElem _ _ h0lt]
      exact List.getElem_mem h0lt
    have h0o : ch.getD 0 (.mk [] []) ∈ ch := by
      rw [List.getD_eq_getElem _ _ (by omega)]
      exact List.getElem_mem (by omega)
    rw [heightOf_getD0 _ _ hne2, heightOf_getD0 _ _ hne, hH _ h0n,
      hhts _ h0o _ hjmem]
  · intro x hx
    obtain ⟨l, hl, hget⟩ := List.getElem_of_mem hx
    have hl' : l < ch.length - 1 := by omega
    by_cases hlj : l < j + 1
    · rw [List.getElem_eraseIdx_of_lt (ch.set j Mg) (j + 1) l hl hlj,
        List.getElem_set] at hget
      by_cases hc2 : j = l
      · rw [if_pos hc2] at hget
        rw [← hget]
        exact hMsub
      · rw [if_neg hc2] at hget
        have := hsubs l (by omega) (fun h => hc2 h.symm) (by omega)
        rw [List.getD_eq_getElem _ _ (by omega : l < ch.length)] at this
        rw [← hget]
        exact this
    · rw [List.getElem_eraseIdx_of_ge (ch.set j Mg) (j + 1) l hl (by omega),
        List.getElem_set] at hget
      rw [if_neg (by omega : ¬ j = l + 1)] at hget
      have := hsubs (l + 1) (by omega) (by omega) (by omega)
      rw [List.getD_eq_getElem _ _ (by omega : l + 1 < ch.length)] at this
      rw [← hget]
      exact this

/-- One `_fix_remove` repair step on the child in slot `i` (lines
283-360): given well-formed same-height children that satisfy the
occupancy bounds except that slot `i` may be one key short, the repaired
parent keeps its traversal and height, all its children are within
bounds, and it loses at most one key. -/
theorem fixChild_spec (M : Nat) (hM : 3 ≤ M) (keys : List Int)
    (ch : List BTreeNode) (i : Nat)
    (hi : i < ch.length) (hlen : ch.length = keys.length + 1)
    (hks : 1 ≤ keys.length)
    (hstc : ∀ x ∈ ch, Struct x)
    (hunic : ∀ x ∈ ch, Uniform x)
    (hhts : ∀ x ∈ ch, ∀ y ∈ ch, heightOf x = heightOf y)
    (hsib : ∀ j, j < ch.length → j ≠ i → SubOk M (ch.getD j (.mk [] [])))
    (hloose1 : (M - 1) / 2 - 1 ≤ (ch.getD i (.mk [] [])).keys.length)
    (hloose2 : (ch.getD i (.mk [] [])).keys.length ≤ M - 1)
    (hloose3 : ∀ x ∈ (ch.getD i (.mk [] [])).children, SubOk M x) :
    (fixChild M (.mk keys ch) i).traverse_inorder
        = (BTreeNode.mk keys ch).traverse_inorder ∧
    Struct (fixChild M (.mk keys ch) i) ∧
    Uniform (fixChild M (.mk keys ch) i) ∧
    heightOf (fixChild M (.mk keys ch) i) = heightOf (BTreeNode.mk keys ch) ∧
    (∀ x ∈ (fixChild M (.mk keys ch) i).children, SubOk M x) ∧
    keys.length - 1 ≤ (fixChild M (.mk keys ch) i).keys.length ∧
    (fixChild M (.mk keys ch) i).keys.length ≤ keys.length ∧
    (fixChild M (.mk keys ch) i).children.length
      = (fixChild M (.mk keys ch) i).keys.length + 1 := by
  cases ch with
  | nil => simp at hi
  | cons c0 cs =>
    have hdI : (c0 :: cs).getD i c0 = (c0 :: cs).getD i (.mk [] []) :=
      getD_irrel _ _ _ _ hi
    rw [← hdI] at hloose1 hloose2 hloose3
    have hmemI : (c0 :: cs).getD i c0 ∈ c0 :: cs := by
      rw [List.getD_eq_getElem _ _ hi]
      exact List.getElem_mem hi
    by_cases h0 : isUnderflowing M ((c0 :: cs).getD i c0) = true
    · have hund : ((c0 :: cs).getD i c0).keys.length < (M - 1) / 2 := by
        simpa [isUnderflowing] using h0
      by_cases h1 : i ≠ 0 ∧ isPopulous M ((c0 :: cs).getD (i - 1) c0) = true
      · -- redistribute with the left sibling
        obtain ⟨hi0, hpop⟩ := h1
        have hpop' : (M - 1) / 2 + 1
            ≤ ((c0 :: cs).getD (i - 1) c0).keys.length := by
          simpa [isPopulous] using hpop
        have hi1 : i - 1 + 1 = i := by omega
        have hdL : (c0 :: cs).getD (i - 1) c0
            = (c0 :: cs).getD (i - 1) (.mk [] []) :=
          getD_irrel _ _ _ _ (by omega)
        have hmemL : (c0 :: cs).getD (i - 1) c0 ∈ c0 :: cs := by
          rw [List.getD_eq_getElem _ _ (by omega : i - 1 < (c0 :: cs).length)]
          exact List.getElem_mem _
        have hLsub : SubOk M ((c0 :: cs).getD (i - 1) c0) := by
          rw [hdL]
          exact hsib (i - 1) (by omega) (by omega)
        obtain ⟨hLlo, hLhi, hLch⟩ := SubOk_elim hLsub
        have RB := redistribute_spec M hM (keys.getD (i - 1) 0)
          ((c0 :: cs).getD (i - 1) c0) ((c0 :: cs).getD i c0)
          (hstc _ hmemL) (hstc _ hmemI) (hunic _ hmemL) (hunic _ hmemI)
          (hhts _ hmemL _ hmemI) hLch hloose3 (by omega) (by omega)
        obtain ⟨hstCL, hstCR, huCL, huCR, hhCL, hhCR, hsCL, hsCR, htr⟩ := RB
        have hrhs : ((c0 :: cs).getD (i - 1) c0).traverse_inorder
            ++ keys.getD (i - 1) 0 :: ((c0 :: cs).getD i c0).traverse_inorder
            = ((c0 :: cs).getD (i - 1) (.mk [] [])).traverse_inorder
              ++ keys.getD (i - 1) 0 ::
                ((c0 :: cs).getD (i - 1 + 1) (.mk [] [])).traverse_inorder := by
          rw [hi1, ← hdL, ← hdI]
        have HP := pairset_spec M keys (c0 :: cs) (i - 1) (by omega) hlen
          hstc hunic hhts _ _ _ hstCL hstCR huCL huCR
          (hhCL.trans (congrArg heightOf hdL))
          (hhCR.trans (congrArg heightOf hdL)) hsCL hsCR
          (htr.trans hrhs)
          (fun l hl hl1 hl2 => hsib l hl (by omega))
        rw [hi1] at HP
        obtain ⟨HT, HS, HU, HH, HB⟩ := HP
        rw [fixChild_redisL M keys c0 cs i h0 hi0 hpop]
        refine ⟨HT, HS, HU, HH, HB, ?_, ?_, ?_⟩
        · simp only [BTreeNode.keys_mk, List.length_set]
          omega
        · simp only [BTreeNode.keys_mk, List.length_set]
          omega
        · simp only [BTreeNode.keys_mk, BTreeNode.children_mk,
            List.length_set]
          exact hlen
      · by_cases h2 : i ≠ (c0 :: cs).length - 1
            ∧ isPopulous M ((c0 :: cs).getD (i + 1) c0) = true
        · -- redistribute with the right sibling
          obtain ⟨hilast, hpop⟩ := h2
          have hpop' : (M - 1) / 2 + 1
              ≤ ((c0 :: cs).getD (i + 1) c0).keys.length := by
            simpa [isPopulous] using hpop
          have hi1lt : i + 1 < (c0 :: cs).length := by
            simp only [List.length_cons] at hi hilast ⊢
            omega
          have hdR : (c0 :: cs).getD (i + 1) c0
              = (c0 :: cs).getD (i + 1) (.mk [] []) :=
            getD_irrel _ _ _ _ hi1lt
          have hmemR : (c0 :: cs).getD (i + 1) c0 ∈ c0 :: cs := by
            rw [List.getD_eq_getElem _ _ hi1lt]
            exact List.getElem_mem _
          have hRsub : SubOk M ((c0 :: cs).getD (i + 1) c0) := by
            rw [hdR]
            exact hsib (i + 1) hi1lt (by omega)
          obtain ⟨hRlo, hRhi, hRch⟩ := SubOk_elim hRsub
          have RB := redistribute_spec M hM (keys.getD i 0)
            ((c0 :: cs).getD i c0) ((c0 :: cs).getD (i + 1) c0)
            (hstc _ hmemI) (hstc _ hmemR) (hunic _ hmemI) (hunic _ hmemR)
            (hhts _ hmemI _ hmemR) hloose3 hRch (by omega) (by omega)
          obtain ⟨hstCL, hstCR, huCL, huCR, hhCL, hhCR, hsCL, hsCR, htr⟩ := RB
          have hrhs : ((c0 :: cs).getD i c0).traverse_inorder
              ++ keys.getD i 0 :: ((c0 :: cs).getD (i + 1) c0).traverse_inorder
              = ((c0 :: cs).getD i (.mk [] [])).traverse_inorder
                ++ keys.getD i 0 ::
                  ((c0 :: cs).getD (i + 1) (.mk [] [])).traverse_inorder := by
            rw [← hdI, ← hdR]
          have HP := pairset_spec M keys (c0 :: cs) i hi1lt hlen
            hstc hunic hhts _ _ _ hstCL hstCR huCL huCR
            (hhCL.trans (congrArg heightOf hdI))
            (hhCR.trans (congrArg heightOf hdI)) hsCL hsCR
            (htr.trans hrhs)
            (fun l hl hl1 hl2 => hsib l hl (by omega))
          obtain ⟨HT, HS, HU, HH, HB⟩ := HP
          rw [fixChild_redisR M keys c0 cs i h0 h1 hilast hpop]
          refine ⟨HT, HS, HU, HH, HB, ?_, ?_, ?_⟩
          · simp only [BTreeNode.keys_mk, List.length_set]
            omega
          · simp only [BTreeNode.keys_mk, List.length_set]
            omega
          · simp only [BTreeNode.keys_mk, BTreeNode.children_mk,
              List.length_set]
            exact hlen
        · by_cases h3 : i = (c0 :: cs).length - 1
          · -- merge into the left sibling (child is the last slot)
            have hi0 : i ≠ 0 := by
              simp only [List.length_cons] at hlen h3
              omega
            have hnp : ¬ isPopulous M ((c0 :: cs).getD (i - 1) c0) = true :=
              fun hp => h1 ⟨hi0, hp⟩
            have hnp' : ¬ ((M - 1) / 2 + 1
                ≤ ((c0 :: cs).getD (i - 1) c0).keys.length) := by
              simpa [isPopulous] using hnp
            have hi1 : i - 1 + 1 = i := by omega
            have hdL : (c0 :: cs).getD (i - 1) c0
                = (c0 :: cs).getD (i - 1) (.mk [] []) :=
              getD_irrel _ _ _ _ (by omega)
            have hmemL : (c0 :: cs).getD (i - 1) c0 ∈ c0 :: cs := by
              rw [List.getD_eq_getElem _ _
                (by omega : i - 1 < (c0 :: cs).length)]
              exact List.getElem_mem _
            have hLsub : SubOk M ((c0 :: cs).getD (i - 1) c0) := by
              rw [hdL]
              exact hsib (i - 1) (by omega) (by omega)
            obtain ⟨hLlo, hLhi, hLch⟩ := SubOk_elim hLsub
            obtain ⟨hgs, hgu, hgh, hgt⟩ := glue_spec (keys.getD (i - 1) 0)
              ((c0 :: cs).getD (i - 1) c0) ((c0 :: cs).getD i c0)
              (hstc _ hmemL) (hstc _ hmemI) (hunic _ hmemL) (hunic _ hmemI)
              (hhts _ hmemL _ hmemI)
            have hgsub := merge_subOk M (keys.getD (i - 1) 0)
              ((c0 :: cs).getD (i - 1) c0) ((c0 :: cs).getD i c0)
              hLch hloose3 (by omega) (by omega)
            have hrhs : ((c0 :: cs).getD (i - 1) c0).traverse_inorder
                ++ keys.getD (i - 1) 0 ::
                  ((c0 :: cs).getD i c0).traverse_inorder
                = ((c0 :: cs).getD (i - 1) (.mk [] [])).traverse_inorder
                  ++ keys.getD (i - 1) 0 ::
                    ((c0 :: cs).getD (i - 1 + 1)
                      (.mk [] [])).traverse_inorder := by
              rw [hi1, ← hdL, ← hdI]
            have HP := pairmerge_spec M keys (c0 :: cs) (i - 1) (by omega)
              hlen hstc hunic hhts _ hgs hgu
              (hgh.trans (congrArg heightOf hdL)) hgsub
              (hgt.trans hrhs)
              (fun l hl hl1 hl2 => hsib l hl (by omega))
            rw [hi1] at HP
            obtain ⟨HT, HS, HU, HH, HB, HK, HC⟩ := HP
            rw [fixChild_mergeL M keys c0 cs i h0 h1 h2 h3]
            refine ⟨HT, HS, HU, HH, HB, ?_, ?_, ?_⟩
            · simp only [BTreeNode.keys_mk]
              omega
            · simp only [BTreeNode.keys_mk]
              omega
            · simp only [BTreeNode.keys_mk, BTreeNode.children_mk]
              simp only [List.length_cons] at HC hlen
              omega
          · -- merge the right sibling into the child
            have hi1lt : i + 1 < (c0 :: cs).length := by
              simp only [List.length_cons] at hi h3 ⊢
              omega
            have hnp : ¬ isPopulous M ((c0 :: cs).getD (i + 1) c0) = true :=
              fun hp => h2 ⟨h3, hp⟩
            have hnp' : ¬ ((M - 1) / 2 + 1
                ≤ ((c0 :: cs).getD (i + 1) c0).keys.length) := by
              simpa [isPopulous] using hnp
            have hdR : (c0 :: cs).getD (i + 1) c0
                = (c0 :: cs).getD (i + 1) (.mk [] []) :=
              getD_irrel _ _ _ _ hi1lt
            have hmemR : (c0 :: cs).getD (i + 1) c0 ∈ c0 :: cs := by
              rw [List.getD_eq_getElem _ _ hi1lt]
              exact List.getElem_mem _
            have hRsub : SubOk M ((c0 :: cs).getD (i + 1) c0) := by
              rw [hdR]
              exact hsib (i + 1) hi1lt (by omega)
            obtain ⟨hRlo, hRhi, hRch⟩ := SubOk_elim hRsub
            obtain ⟨hgs, hgu, hgh, hgt⟩ := glue_spec (keys.getD i 0)
              ((c0 :: cs).getD i c0) ((c0 :: cs).getD (i + 1) c0)
              (hstc _ hmemI) (hstc _ hmemR) (hunic _ hmemI) (hunic _ hmemR)
              (hhts _ hmemI _ hmemR)
            have hgsub := merge_subOk M (keys.getD i 0)
              ((c0 :: cs).getD i c0) ((c0 :: cs).getD (i + 1) c0)
              hloose3 hRch (by omega) (by omega)
            have hrhs : ((c0 :: cs).getD i c0).traverse_inorder
                ++ keys.getD i 0 ::
                  ((c0 :: cs).getD (i + 1) c0).traverse_inorder
                = ((c0 :: cs).getD i (.mk [] [])).traverse_inorder
                  ++ keys.getD i 0 ::
                    ((c0 :: cs).getD (i + 1) (.mk [] [])).traverse_inorder := by
              rw [← hdI, ← hdR]
            have HP := pairmerge_spec M keys (c0 :: cs) i hi1lt
              hlen hstc hunic hhts _ hgs hgu
              (hgh.trans (congrArg heightOf hdI)) hgsub
              (hgt.trans hrhs)
              (fun l hl hl1 hl2 => hsib l hl (by omega))
            obtain ⟨HT, HS, HU, HH, HB, HK, HC⟩ := HP
            rw [fixChild_mergeR M keys c0 cs i h0 h1 h2 h3]
            refine ⟨HT, HS, HU, HH, HB, ?_, ?_, ?_⟩
            · simp only [BTreeNode.keys_mk]
              omega
            · simp only [BTreeNode.keys_mk]
              omega
            · simp only [BTreeNode.keys_mk, BTreeNode.children_mk]
              simp only [List.length_cons] at HC hlen
              omega
    · -- the child is not underflowing: nothing to repair
      have hok : (M - 1) / 2 ≤ ((c0 :: cs).getD i c0).keys.length := by
        simp only [isUnderflowing, decide_eq_true_eq] at h0
        omega
      rw [fixChild_stop M keys c0 cs i h0]
      refine ⟨rfl, ?_, ?_, rfl, ?_,
        by simp only [BTreeNode.keys_mk]; omega,
        by simp only [BTreeNode.keys_mk]; omega, hlen⟩
      · rw [Struct_mk]
        exact ⟨Or.inr hlen, hstc⟩
      · rw [Uniform_mk]
        exact ⟨hunic, hhts⟩
      · intro x hx
        simp only [BTreeNode.children_mk] at hx
        obtain ⟨j, hjl, hget⟩ := List.getElem_of_mem hx
        by_cases hji : j = i
        · subst hji
          rw [List.getD_eq_getElem _ c0 hjl] at hok hloose2 hloose3
          rw [← hget]
          exact SubOk_intro hok hloose2 hloose3
        · have := hsib j hjl hji
          rw [List.getD_eq_getElem _ _ hjl] at this
          rw [← hget]
          exact this

theorem popSucc_leaf (M : Nat) (keys : List Int) :
    popSucc M (.mk keys []) = (keys.getD 0 0, .mk (keys.eraseIdx 0) []) := by
  rw [popSucc]

theorem popSucc_cons (M : Nat) (keys : List Int) (c0 : BTreeNode)
    (cs : List BTreeNode) :
    popSucc M (.mk keys (c0 :: cs)) =
      ((popSucc M c0).1,
        fixChild M (.mk keys ((c0 :: cs).set 0 (popSucc M c0).2)) 0) := by
  rw [popSucc]

theorem set_getD_self {α : Type} : ∀ (l : List α) (i : Nat) (d : α),
    i < l.length → l.set i (l.getD i d) = l := by
  intro l
  induction l with
  | nil =>
    intro i d h
    simp at h
  | cons a t ih =>
    intro i d h
    cases i with
    | zero => rw [List.getD_cons_zero, List.set_cons_zero]
    | succ j =>
      rw [List.getD_cons_succ, List.set_cons_succ,
        ih j d (by simpa using h)]

/-- The in-order-successor extraction (lines 257-264 together with the
`_fix_remove` repairs along the recorded path): it pops the leftmost key
off the subtree's traversal, preserves shape, balance and height, and
leaves the subtree at most one key short of the occupancy bounds. -/
theorem popSucc_spec (M : Nat) (hM : 3 ≤ M) : ∀ n, Struct n → Uniform n →
    SubOk M n →
    (popSucc M n).1 :: (popSucc M n).2.traverse_inorder
        = n.traverse_inorder ∧
    Struct (popSucc M n).2 ∧ Uniform (popSucc M n).2 ∧
    heightOf (popSucc M n).2 = heightOf n ∧
    (M - 1) / 2 - 1 ≤ (popSucc M n).2.keys.length ∧
    (popSucc M n).2.keys.length ≤ M - 1 ∧
    ∀ x ∈ (popSucc M n).2.children, SubOk M x := by
  intro n
  induction n using popSucc.induct M with
  | case1 ks =>
    intro hst hun hsub
    obtain ⟨hlo, hhi, _⟩ := SubOk_elim hsub
    simp only [BTreeNode.keys_mk] at hlo hhi
    rw [popSucc_leaf]
    dsimp only
    cases ks with
    | nil =>
      simp only [List.length_nil] at hlo
      omega
    | cons k0 ks' =>
      simp only [List.length_cons] at hlo hhi
      refine ⟨?_, ?_, ?_, ?_, ?_, ?_, ?_⟩
      · rw [trav_leaf, trav_leaf, List.getD_cons_zero, List.eraseIdx_cons_zero]
      · rw [Struct_mk]
        exact ⟨Or.inl rfl, by simp⟩
      · rw [Uniform_mk]
        simp
      · rw [heightOf_leaf, heightOf_leaf]
      · simp only [BTreeNode.keys_mk, List.eraseIdx_cons_zero]
        omega
      · simp only [BTreeNode.keys_mk, List.eraseIdx_cons_zero]
        omega
      · simp
  | case2 ks c0 cs ih =>
    intro hst hun hsub
    obtain ⟨hstlen, hstmem⟩ := Struct_elim hst
    have hc0mem : c0 ∈ c0 :: cs := List.mem_cons_self c0 cs
    have IH := ih (hstmem c0 hc0mem) ((Uniform_elim hun).1 c0 hc0mem)
      ((SubOk_elim hsub).2.2 c0 hc0mem)
    obtain ⟨ihT, ihS, ihU, ihH, ihLo, ihHi, ihSub⟩ := IH
    rw [popSucc_cons]
    dsimp only
    rw [List.set_cons_zero]
    have hlen2 : ((popSucc M c0).2 :: cs).length = ks.length + 1 := by
      rcases hstlen with h | h
      · exact absurd h (by simp)
      · simpa using h
    have hks1 : 1 ≤ ks.length := by
      have := (SubOk_elim hsub).1
      simp only [BTreeNode.keys_mk] at this
      omega
    have hallh : ∀ x ∈ (popSucc M c0).2 :: cs, heightOf x = heightOf c0 := by
      intro x hx
      rcases List.mem_cons.mp hx with rfl | hx
      · exact ihH
      · exact (Uniform_elim hun).2 x (List.mem_cons_of_mem c0 hx) c0 hc0mem
    have FS := fixChild_spec M hM ks ((popSucc M c0).2 :: cs) 0
      (by simp) hlen2 hks1
      (by
        intro x hx
        rcases List.mem_cons.mp hx with rfl | hx
        · exact ihS
        · exact hstmem x (List.mem_cons_of_mem c0 hx))
      (by
        intro x hx
        rcases List.mem_cons.mp hx with rfl | hx
        · exact ihU
        · exact (Uniform_elim hun).1 x (List.mem_cons_of_mem c0 hx))
      (fun x hx y hy => (hallh x hx).trans (hallh y hy).symm)
      (by
        intro j hj hj0
        cases j with
        | zero => exact absurd rfl hj0
        | succ j' =>
          rw [List.getD_cons_succ]
          have hj' : j' < cs.length := by simpa using hj
          have hmem : cs.getD j' (.mk [] []) ∈ cs := by
            rw [List.getD_eq_getElem _ _ hj']
            exact List.getElem_mem hj'
          exact (SubOk_elim hsub).2.2 _ (List.mem_cons_of_mem c0 hmem))
      (by rw [List.getD_cons_zero]; exact ihLo)
      (by rw [List.getD_cons_zero]; exact ihHi)
      (by rw [List.getD_cons_zero]; exact ihSub)
    obtain ⟨FT, FS', FU, FH, FB, FK1, FK2, FC⟩ := FS
    refine ⟨?_, FS', FU, ?_, ?_, ?_, FB⟩
    · rw [FT]
      cases ks with
      | nil =>
        cases cs with
        | nil =>
          rw [trav_last, trav_last]
          exact ihT
        | cons c1 cs' => simp at hlen2
      | cons k0 ks' =>
        cases cs with
        | nil => simp at hlen2
        | cons c1 cs' =>
          rw [trav_cons, trav_cons, ← ihT]
          simp
    · rw [FH, heightOf_cons, heightOf_cons, ihH]
    · have := (SubOk_elim hsub).1
      simp only [BTreeNode.keys_mk] at this
      omega
    · have := (SubOk_elim hsub).2.1
      simp only [BTreeNode.keys_mk] at this
      omega

theorem getD_mem_of_lt {α : Type} (l : List α) (i : Nat) (d : α)
    (h : i < l.length) : l.getD i d ∈ l := by
  rw [List.getD_eq_getElem _ _ h]
  exact List.getElem_mem h

theorem getD_set_eq {α : Type} (l : List α) (i : Nat) (a d : α)
    (hi : i < l.length) : (l.set i a).getD i d = a := by
  rw [List.getD_eq_getElem _ _ (by simpa [List.length_set] using hi),
    List.getElem_set, if_pos rfl]

theorem getD_set_ne {α : Type} (l : List α) (i j : Nat) (a d : α)
    (hj : j < l.length) (h : i ≠ j) : (l.set i a).getD j d = l.getD j d := by
  rw [List.getD_eq_getElem _ _ (by simpa [List.length_set] using hj),
    List.getD_eq_getElem _ _ hj, List.getElem_set, if_neg h]

/-- The descent-and-repair core of `remove` (lines 234-268 plus the
`_fix_remove` walk) on a subtree that holds the key: it erases exactly
that key from the traversal, preserves shape, balance and height, loses
at most one key at the top, and keeps every child within the occupancy
bounds. -/
theorem removeGo_spec (M : Nat) (hM : 3 ≤ M) (k : Int) : ∀ n, Struct n →
    Uniform n → List.Pairwise (· < ·) n.traverse_inorder →
    n.keys.length ≤ M - 1 → (n.children ≠ [] → 1 ≤ n.keys.length) →
    (∀ c ∈ n.children, SubOk M c) →
    ∀ n', removeGo M k n = some n' →
      n'.traverse_inorder = n.traverse_inorder.erase k ∧
      k ∈ n.traverse_inorder ∧
      Struct n' ∧ Uniform n' ∧ heightOf n' = heightOf n ∧
      n.keys.length - 1 ≤ n'.keys.length ∧
      n'.keys.length ≤ n.keys.length ∧
      ∀ x ∈ n'.children, SubOk M x := by
  intro n
  induction n using removeGo.induct M k with
  | case1 ks i hmatch =>
    intro hst hun hpw hkle hne hsub n' hrem
    have hmatch' : idxFor k ks < ks.length ∧ ks.getD (idxFor k ks) 0 = k :=
      hmatch
    rw [removeGo] at hrem
    rw [if_pos hmatch'] at hrem
    obtain rfl : BTreeNode.mk (ks.eraseIdx (idxFor k ks)) [] = n' :=
      Option.some.inj hrem
    refine ⟨?_, ?_, ?_, ?_, ?_, ?_, ?_, ?_⟩
    · rw [trav_leaf, trav_leaf,
        eraseIdx_idxFor_eq_erase ks hmatch'.1 hmatch'.2]
    · rw [trav_leaf]
      exact mem_of_getD hmatch'.1 hmatch'.2
    · rw [Struct_mk]
      exact ⟨Or.inl rfl, by simp⟩
    · rw [Uniform_mk]
      simp
    · rw [heightOf_leaf, heightOf_leaf]
    · simp only [BTreeNode.keys_mk]
      rw [List.length_eraseIdx, if_pos hmatch'.1]
    · simp only [BTreeNode.keys_mk]
      rw [List.length_eraseIdx, if_pos hmatch'.1]
      omega
    · simp
  | case2 ks i hmatch c0 cs =>
    intro hst hun hpw hkle hne hsub n' hrem
    have hmatch' : idxFor k ks < ks.length ∧ ks.getD (idxFor k ks) 0 = k :=
      hmatch
    rw [removeGo] at hrem
    dsimp only at hrem
    rw [if_pos hmatch'] at hrem
    obtain rfl := Option.some.inj hrem
    simp only [BTreeNode.keys_mk, BTreeNode.children_mk] at hkle hsub
    have hlen2 : (c0 :: cs).length = ks.length + 1 := by
      rcases (Struct_elim hst).1 with h | h
      · exact absurd h (by simp)
      · exact h
    have hilt : idxFor k ks < (c0 :: cs).length := by
      rw [hlen2]
      omega
    have hi1lt : idxFor k ks + 1 < (c0 :: cs).length := by
      rw [hlen2]
      omega
    have hdC : (c0 :: cs).getD (idxFor k ks + 1) c0
        = (c0 :: cs).getD (idxFor k ks + 1) (.mk [] []) :=
      getD_irrel _ _ _ _ hi1lt
    have hmemC : (c0 :: cs).getD (idxFor k ks + 1) c0 ∈ c0 :: cs := by
      rw [List.getD_eq_getElem _ _ hi1lt]
      exact List.getElem_mem _
    have hsubC := hsub _ hmemC
    obtain ⟨hClo, hChi, hCch⟩ := SubOk_elim hsubC
    have PS := popSucc_spec M hM ((c0 :: cs).getD (idxFor k ks + 1) c0)
      ((Struct_elim hst).2 _ hmemC) ((Uniform_elim hun).1 _ hmemC) hsubC
    obtain ⟨psT, psS, psU, psH, psLo, psHi, psSub⟩ := PS
    obtain ⟨X, Y, horig, hsetf, hmergef⟩ :=
      trav_pair_ctx (idxFor k ks) ks (c0 :: cs) hi1lt hlen2
    have hset2 := hsetf
      (popSucc M ((c0 :: cs).getD (idxFor k ks + 1) c0)).1
      ((c0 :: cs).getD (idxFor k ks) (.mk [] []))
      (popSucc M ((c0 :: cs).getD (idxFor k ks + 1) c0)).2
    rw [set_getD_self _ _ _ hilt] at hset2
    have hallh : ∀ x ∈ (c0 :: cs).set (idxFor k ks + 1)
        (popSucc M ((c0 :: cs).getD (idxFor k ks + 1) c0)).2,
        heightOf x = heightOf ((c0 :: cs).getD (idxFor k ks + 1) c0) := by
      intro x hx
      rcases List.mem_or_eq_of_mem_set hx with hx | rfl
      · exact (Uniform_elim hun).2 x hx _ hmemC
      · exact psH
    have FC := fixChild_spec M hM
      (ks.set (idxFor k ks)
        (popSucc M ((c0 :: cs).getD (idxFor k ks + 1) c0)).1)
      ((c0 :: cs).set (idxFor k ks + 1)
        (popSucc M ((c0 :: cs).getD (idxFor k ks + 1) c0)).2)
      (idxFor k ks + 1)
      (by simp only [List.length_set]; exact hi1lt)
      (by simp only [List.length_set]; exact hlen2)
      (by simp only [List.length_set]; omega)
      (by
        intro x hx
        rcases List.mem_or_eq_of_mem_set hx with hx | rfl
        · exact (Struct_elim hst).2 x hx
        · exact psS)
      (by
        intro x hx
        rcases List.mem_or_eq_of_mem_set hx with hx | rfl
        · exact (Uniform_elim hun).1 x hx
        · exact psU)
      (fun x hx y hy => (hallh x hx).trans (hallh y hy).symm)
      (by
        intro j hj hjne
        have hj' : j < (c0 :: cs).length := by
          simpa [List.length_set] using hj
        rw [getD_set_ne _ _ _ _ _ hj' (fun h => hjne h.symm)]
        have hmem : (c0 :: cs).getD j (.mk [] []) ∈ c0 :: cs := by
          rw [List.getD_eq_getElem _ _ hj']
          exact List.getElem_mem hj'
        exact hsub _ hmem)
      (by rw [getD_set_eq _ _ _ _ hi1lt]; exact psLo)
      (by rw [getD_set_eq _ _ _ _ hi1lt]; exact psHi)
      (by rw [getD_set_eq _ _ _ _ hi1lt]; exact psSub)
    obtain ⟨FT, FS', FU, FH, FB, FK1, FK2, FCl⟩ := FC
    have horig' : (BTreeNode.mk ks (c0 :: cs)).traverse_inorder
        = X ++ (((c0 :: cs).getD (idxFor k ks) (.mk [] [])).traverse_inorder
            ++ k :: ((c0 :: cs).getD (idxFor k ks + 1)
              (.mk [] [])).traverse_inorder) ++ Y := by
      rw [horig, hmatch'.2]
    have hpw' := hpw
    rw [horig'] at hpw'
    have hpwXM := (List.pairwise_append.mp hpw').1
    have hkX : k ∉ X := by
      intro hkx
      exact lt_irrefl k
        ((List.pairwise_append.mp hpwXM).2.2 k hkx k (by simp))
    have hpwM := (List.pairwise_append.mp hpwXM).2.1
    have hkTi : k ∉ ((c0 :: cs).getD (idxFor k ks)
        (.mk [] [])).traverse_inorder := by
      intro hkt
      exact lt_irrefl k
        ((List.pairwise_append.mp hpwM).2.2 k hkt k (List.mem_cons_self _ _))
    have herase : ((BTreeNode.mk ks (c0 :: cs)).traverse_inorder).erase k
        = X ++ (((c0 :: cs).getD (idxFor k ks) (.mk [] [])).traverse_inorder
            ++ ((c0 :: cs).getD (idxFor k ks + 1)
              (.mk [] [])).traverse_inorder) ++ Y := by
      rw [horig', List.erase_append_left _ (by simp),
        List.erase_append_right _ hkX,
        List.erase_append_right _ hkTi, List.erase_cons_head]
    refine ⟨?_, ?_, FS', FU, ?_, ?_, ?_, FB⟩
    · rw [FT, hset2, herase]
      have hps : (popSucc M ((c0 :: cs).getD (idxFor k ks + 1) c0)).1
          :: (popSucc M
            ((c0 :: cs).getD (idxFor k ks + 1) c0)).2.traverse_inorder
          = ((c0 :: cs).getD (idxFor k ks + 1)
            (.mk [] [])).traverse_inorder := by
        rw [← hdC]
        exact psT
      rw [← hps]
    · rw [horig']
      simp
    · rw [FH]
      have hne1 : (c0 :: cs).set (idxFor k ks + 1)
          (popSucc M ((c0 :: cs).getD (idxFor k ks + 1) c0)).2 ≠ [] := by
        apply List.ne_nil_of_length_pos
        simp only [List.length_set, List.length_cons]
        omega
      have h0n : ((c0 :: cs).set (idxFor k ks + 1)
          (popSucc M ((c0 :: cs).getD (idxFor k ks + 1) c0)).2).getD 0
            (.mk [] [])
          ∈ (c0 :: cs).set (idxFor k ks + 1)
            (popSucc M ((c0 :: cs).getD (idxFor k ks + 1) c0)).2 :=
        getD_mem_of_lt _ 0 _ (by simp [List.length_set])
      have h0o : (c0 :: cs).getD 0 (.mk [] []) ∈ c0 :: cs :=
        getD_mem_of_lt _ 0 _ (by simp)
      rw [heightOf_getD0 _ _ hne1,
        heightOf_getD0 _ _ (by simp : (c0 :: cs) ≠ []),
        hallh _ h0n, (Uniform_elim hun).2 _ h0o _ hmemC]
    · simp only [BTreeNode.keys_mk]
      simp only [List.length_set] at FK1
      omega
    · simp only [BTreeNode.keys_mk]
      simp only [List.length_set] at FK2
      omega
  | case3 ks i hmatch =>
    intro hst hun hpw hkle hne hsub n' hrem
    have hmatch' : ¬ (idxFor k ks < ks.length
        ∧ ks.getD (idxFor k ks) 0 = k) := hmatch
    rw [removeGo] at hrem
    rw [if_neg hmatch'] at hrem
    simp at hrem
  | case4 ks i hmatch c0 cs hnone ih =>
    intro hst hun hpw hkle hne hsub n' hrem
    have hmatch' : ¬ (idxFor k ks < ks.length
        ∧ ks.getD (idxFor k ks) 0 = k) := hmatch
    have hnone' : removeGo M k ((c0 :: cs).getD (idxFor k ks) c0) = none :=
      hnone
    rw [removeGo] at hrem
    dsimp only at hrem
    rw [if_neg hmatch', hnone'] at hrem
    simp at hrem
  | case5 ks i hmatch c0 cs r hsome ih =>
    intro hst hun hpw hkle hne hsub n' hrem
    have hmatch' : ¬ (idxFor k ks < ks.length
        ∧ ks.getD (idxFor k ks) 0 = k) := hmatch
    have hsome' : removeGo M k ((c0 :: cs).getD (idxFor k ks) c0) = some r :=
      hsome
    rw [removeGo] at hrem
    dsimp only at hrem
    rw [if_neg hmatch', hsome'] at hrem
    obtain rfl := Option.some.inj hrem
    simp only [BTreeNode.keys_mk, BTreeNode.children_mk] at hkle hsub hne
    have hlen2 : (c0 :: cs).length = ks.length + 1 := by
      rcases (Struct_elim hst).1 with h | h
      · exact absurd h (by simp)
      · exact h
    have hks1 : 1 ≤ ks.length := hne (by simp)
    have hilt : idxFor k ks < (c0 :: cs).length := by
      have := idxFor_le k ks
      rw [hlen2]
      omega
    have hdI : (c0 :: cs).getD (idxFor k ks) c0
        = (c0 :: cs).getD (idxFor k ks) (.mk [] []) :=
      getD_irrel _ _ _ _ hilt
    have hmemI : (c0 :: cs).getD (idxFor k ks) c0 ∈ c0 :: cs := by
      rw [List.getD_eq_getElem _ _ hilt]
      exact List.getElem_mem _
    have hsubI := hsub _ hmemI
    obtain ⟨hIlo, hIhi, hIch⟩ := SubOk_elim hsubI
    obtain ⟨X, Y, hsetf, horig, _, _, _, _⟩ :=
      trav_slot_ctx (idxFor k ks) ks (c0 :: cs) hilt hlen2
    have horig' : (BTreeNode.mk ks (c0 :: cs)).traverse_inorder
        = X ++ ((c0 :: cs).getD (idxFor k ks) c0).traverse_inorder ++ Y := by
      rw [horig, hdI]
    have hpw' := hpw
    rw [horig'] at hpw'
    have hpwXC := (List.pairwise_append.mp hpw').1
    have hpwc : List.Pairwise (· < ·)
        ((c0 :: cs).getD (idxFor k ks) c0).traverse_inorder :=
      (List.pairwise_append.mp hpwXC).2.1
    have IH := ih ((Struct_elim hst).2 _ hmemI) ((Uniform_elim hun).1 _ hmemI)
      hpwc hIhi
      (fun _ =>
        (by omega : 1 ≤ ((c0 :: cs).getD (idxFor k ks) c0).keys.length))
      hIch r hsome'
    obtain ⟨ihT, ihK, ihS, ihU, ihH, ihLo, ihHi, ihSub⟩ := IH
    have ihLo' : ((c0 :: cs).getD (idxFor k ks) c0).keys.length - 1
        ≤ r.keys.length := ihLo
    have ihHi' : r.keys.length
        ≤ ((c0 :: cs).getD (idxFor k ks) c0).keys.length := ihHi
    have hkX : k ∉ X := by
      intro hkx
      exact lt_irrefl k ((List.pairwise_append.mp hpwXC).2.2 k hkx k ihK)
    have herase : ((BTreeNode.mk ks (c0 :: cs)).traverse_inorder).erase k
        = X ++ (((c0 :: cs).getD (idxFor k ks) c0).traverse_inorder).erase k
          ++ Y := by
      rw [horig', List.erase_append_left _ (List.mem_append_right _ ihK),
        List.erase_append_right _ hkX]
    have hallh : ∀ x ∈ (c0 :: cs).set (idxFor k ks) r,
        heightOf x = heightOf ((c0 :: cs).getD (idxFor k ks) c0) := by
      intro x hx
      rcases List.mem_or_eq_of_mem_set hx with hx | rfl
      · exact (Uniform_elim hun).2 x hx _ hmemI
      · exact ihH
    have FC := fixChild_spec M hM ks ((c0 :: cs).set (idxFor k ks) r)
      (idxFor k ks)
      (by simp only [List.length_set]; exact hilt)
      (by simp only [List.length_set]; exact hlen2)
      hks1
      (by
        intro x hx
        rcases List.mem_or_eq_of_mem_set hx with hx | rfl
        · exact (Struct_elim hst).2 x hx
        · exact ihS)
      (by
        intro x hx
        rcases List.mem_or_eq_of_mem_set hx with hx | rfl
        · exact (Uniform_elim hun).1 x hx
        · exact ihU)
      (fun x hx y hy => (hallh x hx).trans (hallh y hy).symm)
      (by
        intro j hj hjne
        have hj' : j < (c0 :: cs).length := by
          simpa [List.length_set] using hj
        rw [getD_set_ne _ _ _ _ _ hj' (fun h => hjne h.symm)]
        have hmem : (c0 :: cs).getD j (.mk [] []) ∈ c0 :: cs := by
          rw [List.getD_eq_getElem _ _ hj']
          exact List.getElem_mem hj'
        exact hsub _ hmem)
      (by rw [getD_set_eq _ _ _ _ hilt]; omega)
      (by rw [getD_set_eq _ _ _ _ hilt]; omega)
      (by rw [getD_set_eq _ _ _ _ hilt]; exact ihSub)
    obtain ⟨FT, FS', FU, FH, FB, FK1, FK2, FCl⟩ := FC
    refine ⟨?_, ?_, FS', FU, ?_, ?_, ?_, FB⟩
    · rw [FT, hsetf r, herase, ihT]
    · rw [horig']
      exact List.mem_append_left _ (List.mem_append_right _ ihK)
    · rw [FH]
      have hne1 : (c0 :: cs).set (idxFor k ks) r ≠ [] := by
        apply List.ne_nil_of_length_pos
        simp only [List.length_set, List.length_cons]
        omega
      have h0n : ((c0 :: cs).set (idxFor k ks) r).getD 0 (.mk [] [])
          ∈ (c0 :: cs).set (idxFor k ks) r :=
        getD_mem_of_lt _ 0 _ (by simp [List.length_set])
      have h0o : (c0 :: cs).getD 0 (.mk [] []) ∈ c0 :: cs :=
        getD_mem_of_lt _ 0 _ (by simp)
      rw [heightOf_getD0 _ _ hne1,
        heightOf_getD0 _ _ (by simp : (c0 :: cs) ≠ []),
        hallh _ h0n, (Uniform_elim hun).2 _ h0o _ hmemI]
    · simp only [BTreeNode.keys_mk]
      omega
    · simp only [BTreeNode.keys_mk]
      omega

/-- `remove` (lines 223-268, with the `_fix_remove` walk and the
root-collapse branch) on a valid tree: a successful removal keeps the tree
valid, keeps the order, and erases exactly the removed key from the flat
key sequence. -/
theorem remove_valid (t : BTree) (k : Int) (hv : Valid t) (t2 : BTree)
    (hdel : t.remove k = .ok t2) :
    Valid t2 ∧ t2.order = t.order ∧
      t2.traverse_inorder = t.traverse_inorder.erase k := by
  obtain ⟨M, root⟩ := t
  obtain ⟨h3, hroot⟩ := hv
  have h3' : 3 ≤ M := h3
  cases root with
  | none => exact Except.noConfusion hdel
  | some r =>
    obtain ⟨hst, hun, hpw, hro⟩ := hroot
    obtain ⟨hle, hne1, hsub⟩ := hro
    have hle' : r.keys.length ≤ M - 1 := hle
    have hrem : BTree.remove ⟨M, some r⟩ k
        = match removeGo M k r with
          | none => .error .keyNotFound
          | some r2 =>
            match r2.children with
            | [c] => .ok ⟨M, some c⟩
            | _ => .ok ⟨M, some r2⟩ := by
      rw [BTree.remove]
    rw [hrem] at hdel
    cases hgo : removeGo M k r with
    | none =>
      rw [hgo] at hdel
      exact Except.noConfusion hdel
    | some r2 =>
      rw [hgo] at hdel
      have RS := removeGo_spec M h3' k r hst hun hpw hle hne1 hsub r2 hgo
      obtain ⟨rsT, rsK, rsS, rsU, rsH, rsLo, rsHi, rsSub⟩ := RS
      rcases r2 with ⟨ks2, cs2⟩
      cases cs2 with
      | nil =>
        obtain rfl : (⟨M, some (.mk ks2 [])⟩ : BTree) = t2 :=
          Except.ok.inj hdel
        refine ⟨Valid_intro M _ h3' rsS rsU ?_ ?_, rfl, ?_⟩
        · rw [rsT]
          exact hpw.sublist (List.erase_sublist k _)
        · refine ⟨?_, ?_, ?_⟩
          · simp only [BTreeNode.keys_mk] at rsHi ⊢
            omega
          · intro h
            exact absurd rfl h
          · simp
        · rw [btrav_some, btrav_some, rsT]
      | cons c1 cs2' =>
        cases cs2' with
        | nil =>
          obtain rfl : (⟨M, some c1⟩ : BTree) = t2 := Except.ok.inj hdel
          have hc1 : c1 ∈ (BTreeNode.mk ks2 [c1]).children := by simp
          have hks2 : ks2 = [] := by
            rcases (Struct_elim rsS).1 with h | h
            · exact absurd h (by simp)
            · simp only [BTreeNode.children_mk, BTreeNode.keys_mk,
                List.length_cons, List.length_nil] at h
              exact List.eq_nil_of_length_eq_zero (by omega)
          have hsubc1 := rsSub c1 hc1
          obtain ⟨hc1lo, hc1hi, hc1ch⟩ := SubOk_elim hsubc1
          have htr : c1.traverse_inorder
              = (BTreeNode.mk ks2 [c1]).traverse_inorder := by
            rw [hks2, trav_last]
          refine ⟨Valid_intro M _ h3' ((Struct_elim rsS).2 c1 hc1)
            ((Uniform_elim rsU).1 c1 hc1) ?_
            ⟨hc1hi, fun _ => by omega, hc1ch⟩, rfl, ?_⟩
          · rw [htr, rsT]
            exact hpw.sublist (List.erase_sublist k _)
          · rw [btrav_some, btrav_some, htr, rsT]
        | cons c2 cs2'' =>
          obtain rfl : (⟨M, some (.mk ks2 (c1 :: c2 :: cs2''))⟩ : BTree) = t2 :=
            Except.ok.inj hdel
          have hks2 : 1 ≤ ks2.length := by
            rcases (Struct_elim rsS).1 with h | h
            · exact absurd h (by simp)
            · simp only [BTreeNode.children_mk, BTreeNode.keys_mk,
                List.length_cons] at h
              omega
          refine ⟨Valid_intro M _ h3' rsS rsU ?_ ?_, rfl, ?_⟩
          · rw [rsT]
            exact hpw.sublist (List.erase_sublist k _)
          · refine ⟨?_, ?_, ?_⟩
            · simp only [BTreeNode.keys_mk] at rsHi ⊢
              omega
            · intro _
              simpa using hks2
            · exact rsSub
          · rw [btrav_some, btrav_some, rsT]

theorem insert_order (t : BTree) (k : Int) : (t.insert k).order = t.order := by
  obtain ⟨M, root⟩ := t
  cases root with
  | none => rfl
  | some r =>
    rw [BTree.insert]
    dsimp only
    split <;> rfl

/-- Every tree reachable from an empty tree of order `M ≥ 3` by the public
operations satisfies the full invariant and keeps its order. -/
theorem reachable_valid (M : Nat) (t : BTree) (h : Reachable M t) :
    Valid t ∧ t.order = M := by
  induction h with
  | empty h3 => exact ⟨⟨h3, trivial⟩, rfl⟩
  | ins t k h hk ih =>
    obtain ⟨hv, hord⟩ := ih
    exact ⟨(insert_valid t k hv hk).1, (insert_order t k).trans hord⟩
  | rem t t2 k h hdel ih =>
    obtain ⟨hv, hord⟩ := ih
    have R := remove_valid t k hv t2 hdel
    exact ⟨R.1, R.2.1.trans hord⟩

theorem idxFor_prefix_lt (k : Int) : ∀ (ks : List Int) (j : Nat),
    j < idxFor k ks → ks.getD j 0 < k := by
  intro ks
  induction ks with
  | nil =>
    intro j hj
    rw [idxFor_nil] at hj
    omega
  | cons a t ih =>
    intro j hj
    by_cases ha : a < k
    · rw [idxFor_cons_lt t ha] at hj
      cases j with
      | zero =>
        rw [List.getD_cons_zero]
        exact ha
      | succ j' =>
        rw [List.getD_cons_succ]
        exact ih j' (by omega)
    · rw [idxFor_cons_ge t ha] at hj
      omega

theorem idxFor_stop_not_lt (k : Int) : ∀ ks : List Int,
    idxFor k ks < ks.length → ¬ ks.getD (idxFor k ks) 0 < k := by
  intro ks
  induction ks with
  | nil =>
    intro h
    rw [idxFor_nil] at h
    simp at h
  | cons a t ih =>
    intro h
    by_cases ha : a < k
    · rw [idxFor_cons_lt t ha] at h ⊢
      rw [List.getD_cons_succ]
      exact ih (by simpa using h)
    · rw [idxFor_cons_ge t ha, List.getD_cons_zero]
      exact ha

/-- In a strictly sorted key list that holds `k`, the descent index lands
exactly on `k`. -/
theorem idxFor_mem_sorted (k : Int) : ∀ ks : List Int,
    List.Pairwise (· < ·) ks → k ∈ ks →
    idxFor k ks < ks.length ∧ ks.getD (idxFor k ks) 0 = k := by
  intro ks
  induction ks with
  | nil =>
    intro _ hk
    simp at hk
  | cons a t ih =>
    intro hpw hk
    by_cases ha : a < k
    · have hkt : k ∈ t := by
        rcases List.mem_cons.mp hk with rfl | hk
        · exact absurd ha (lt_irrefl k)
        · exact hk
      have hih := ih (List.Pairwise.of_cons hpw) hkt
      rw [idxFor_cons_lt t ha]
      constructor
      · simp only [List.length_cons]
        omega
      · rw [List.getD_cons_succ]
        exact hih.2
    · have hka : k = a := by
        rcases List.mem_cons.mp hk with rfl | hk
        · rfl
        · exact absurd ((List.pairwise_cons.mp hpw).1 k hk) ha
      rw [idxFor_cons_ge t ha]
      exact ⟨by simp, by rw [List.getD_cons_zero]; exact hka.symm⟩

/-- `SubOk` gives the minimum-occupancy bound for every node of the
subtree. -/
theorem subOk_allNodes (M : Nat) : ∀ n, SubOk M n →
    ∀ d ∈ allNodes n, (M - 1) / 2 ≤ d.keys.length := by
  refine node_strong_ind _ ?_
  intro n IH hsub d hd
  rcases n with ⟨ks, cs⟩
  rw [allNodes] at hd
  rcases List.mem_cons.mp hd with rfl | hd
  · have := (SubOk_elim hsub).1
    simpa using this
  · rw [List.mem_flatten] at hd
    obtain ⟨l, hl, hdl⟩ := hd
    rw [List.mem_map] at hl
    obtain ⟨⟨c, hc⟩, _, rfl⟩ := hl
    exact IH c (sizeOf_mem_children_lt hc) ((SubOk_elim hsub).2.2 c hc) d hdl

/-- The `while` descent of `search` on a well-formed sorted subtree that
contains the key reaches a node holding the key. -/
theorem searchGo_found (k : Int) : ∀ n, Struct n →
    List.Pairwise (· < ·) n.traverse_inorder → k ∈ n.traverse_inorder →
    ∃ m, searchGo k n = .found m ∧ k ∈ m.keys := by
  refine node_strong_ind _ ?_
  intro n IH hst hpw hk
  rcases n with ⟨keys, children⟩
  rw [searchGo]
  by_cases hcond : idxFor k keys ≠ keys.length
      ∧ keys.getD (idxFor k keys) 0 = k
  · rw [if_pos hcond]
    refine ⟨_, rfl, ?_⟩
    have hle := idxFor_le k keys
    have hlt : idxFor k keys < keys.length := by
      rcases Nat.lt_or_ge (idxFor k keys) keys.length with h | h
      · exact h
      · exact absurd (by omega) hcond.1
    exact mem_of_getD hlt hcond.2
  · rw [if_neg hcond]
    cases children with
    | nil =>
      rw [trav_leaf] at hpw hk
      have hms := idxFor_mem_sorted k keys hpw hk
      exact absurd ⟨by omega, hms.2⟩ hcond
    | cons c0 cs =>
      have hle := idxFor_le k keys
      have hlen2 : (c0 :: cs).length = keys.length + 1 := by
        rcases (Struct_elim hst).1 with h | h
        · exact absurd h (by simp)
        · exact h
      have hilt : idxFor k keys < (c0 :: cs).length := by
        rw [hlen2]
        omega
      rw [dif_pos hilt]
      obtain ⟨X, Y, hsetf, horig, hX0, hX1, hY0, hY1⟩ :=
        trav_slot_ctx (idxFor k keys) keys (c0 :: cs) hilt hlen2
      have hpw' := hpw
      rw [horig] at hpw'
      have hk' := hk
      rw [horig] at hk'
      have hpwX : List.Pairwise (· < ·) X :=
        (List.pairwise_append.mp (List.pairwise_append.mp hpw').1).1
      have hpwY : List.Pairwise (· < ·) Y :=
        (List.pairwise_append.mp hpw').2.1
      have hkX : k ∉ X := by
        rcases Nat.eq_zero_or_pos (idxFor k keys) with h0 | h0
        · rw [hX0 h0]
          simp
        · obtain ⟨X', rfl⟩ := hX1 h0
          intro hkx
          rcases List.mem_append.mp hkx with hkx | hkx
          · have hlast := (List.pairwise_append.mp hpwX).2.2 k hkx
              (keys.getD (idxFor k keys - 1) 0) (List.mem_cons_self _ _)
            have hpre := idxFor_prefix_lt k keys (idxFor k keys - 1)
              (by omega)
            omega
          · have heq := List.mem_singleton.mp hkx
            have hpre := idxFor_prefix_lt k keys (idxFor k keys - 1)
              (by omega)
            omega
      have hkY : k ∉ Y := by
        rcases Nat.lt_or_ge (idxFor k keys) keys.length with hlt | hge
        · obtain ⟨Y', rfl⟩ := hY1 hlt
          intro hky
          have hstop := idxFor_stop_not_lt k keys hlt
          have hne2 : ¬ keys.getD (idxFor k keys) 0 = k :=
            fun he => hcond ⟨by omega, he⟩
          rcases List.mem_cons.mp hky with heq | hky
          · omega
          · have := (List.pairwise_cons.mp hpwY).1 k hky
            omega
        · rw [hY0 (by omega)]
          simp
      have hkTc : k ∈ ((c0 :: cs).getD (idxFor k keys)
          (.mk [] [])).traverse_inorder := by
        rcases List.mem_append.mp hk' with h | h
        · rcases List.mem_append.mp h with h | h
          · exact absurd h hkX
          · exact h
        · exact absurd h hkY
      have hmem : (c0 :: cs).getD (idxFor k keys) (.mk [] []) ∈ c0 :: cs :=
        getD_mem_of_lt _ _ _ hilt
      have hpwc : List.Pairwise (· < ·) ((c0 :: cs).getD (idxFor k keys)
          (.mk [] [])).traverse_inorder :=
        (List.pairwise_append.mp (List.pairwise_append.mp hpw').1).2.1
      have IH2 := IH _ (sizeOf_mem_children_lt hmem)
        ((Struct_elim hst).2 _ hmem) hpwc hkTc
      rw [List.getD_eq_getElem _ _ hilt] at IH2
      exact IH2

/-- The traversal equation of `insert` on any valid tree (the key may or
may not already be present). -/
theorem insert_trav (t : BTree) (k : Int) (hv : Valid t) :
    (t.insert k).traverse_inorder = sortedIns k t.traverse_inorder := by
  obtain ⟨M, root⟩ := t
  obtain ⟨h3, hroot⟩ := hv
  have h3' : 3 ≤ M := h3
  cases root with
  | none =>
    show BTree.traverse_inorder ⟨M, some (.mk [k] [])⟩
        = sortedIns k (BTree.traverse_inorder ⟨M, none⟩)
    rw [btrav_some, btrav_none, trav_leaf, sortedIns_nil]
  | some r =>
    obtain ⟨hst, hun, hpw, hro⟩ := hroot
    obtain ⟨hle, hne1, hsub⟩ := hro
    have hle' : r.keys.length ≤ M - 1 := hle
    have htrav2 := insGo_trav M k r hst hpw
    have hst2 := insGo_struct M k r hst
    have hocc := insGo_occ M k h3' r hst hle' hsub
    have hins : BTree.insert ⟨M, some r⟩ k
        = if (insGo M k r).keys.length ≤ M - 1
          then (⟨M, some (insGo M k r)⟩ : BTree)
          else ⟨M, some (.mk [(insGo M k r).keys.getD ((M - 1) / 2) 0]
            [splitLeftNode M (insGo M k r), splitRightNode M (insGo M k r)])⟩ := by
      rw [BTree.insert]
      rfl
    rw [hins]
    split_ifs with hsmall
    · rw [btrav_some, btrav_some, htrav2]
    · have hstM : (insGo M k r).keys.length = M := by
        have := hocc.1
        omega
      have hmid : (M - 1) / 2 < (insGo M k r).keys.length := by omega
      have hsplit := split_trav (insGo M k r) hst2 ((M - 1) / 2) hmid
      rw [btrav_some, btrav_some, trav_cons, trav_last, splitLeftNode_def,
        splitRightNode_def, hsplit, htrav2]

theorem dropWhile_eq_cons_of_mem (k : Int) : ∀ l : List Int,
    List.Pairwise (· < ·) l → k ∈ l →
    ∃ r, l.dropWhile (fun x => decide (x < k)) = k :: r := by
  intro l
  induction l with
  | nil =>
    intro _ hk
    simp at hk
  | cons a t ih =>
    intro hpw hk
    by_cases ha : a < k
    · rw [List.dropWhile_cons, if_pos (by simpa using ha)]
      refine ih (List.Pairwise.of_cons hpw) ?_
      rcases List.mem_cons.mp hk with rfl | hk
      · exact absurd ha (lt_irrefl k)
      · exact hk
    · rw [List.dropWhile_cons, if_neg (by simpa using ha)]
      have hka : k = a := by
        rcases List.mem_cons.mp hk with rfl | hk
        · rfl
        · exact absurd ((List.pairwise_cons.mp hpw).1 k hk) ha
      exact ⟨t, by rw [hka]⟩

/-- Sorted insertion of a key that is already present places the copy
immediately before the existing occurrence. -/
theorem sortedIns_dup (k : Int) (l : List Int)
    (hpw : List.Pairwise (· < ·) l) (hk : k ∈ l) :
    ∃ p s, sortedIns k l = p ++ k :: k :: s := by
  obtain ⟨r, hr⟩ := dropWhile_eq_cons_of_mem k l hpw hk
  exact ⟨l.takeWhile (fun x => decide (x < k)), r, by rw [sortedIns, hr]⟩

/-- C1: the claim says a search for an absent non-null key "terminates
normally and returns the explicit not-found result (None) rather than
raising an error".  The code violates this: on any non-empty tree the
descent at a leaf executes `curr_node.children[curr_key_idx]` on the empty
`children` list and raises `IndexError` (contradicting the function's own
docstring, "The node containing the target key, if it exists, or None
otherwise").  The `None` result is only reached when the tree is empty.
This theorem evaluates the embedded `search` at the failing input: a tree
whose root is the leaf `[1]`, searched for the absent key `2`. -/
theorem C1_search_absent_key_raises_index_error :
    BTree.search ⟨3, some (.mk [1] [])⟩ 2 = SearchResult.indexError ∧
    BTree.search ⟨3, none⟩ 2 = SearchResult.notFound := by
  constructor
  · simp [BTree.search, searchGo, idxFor]
  · simp [BTree.search]

/-- C4: removing a non-null key that is not contained in the tree fails
with the KeyNotFound error (`ValueError` at line 254).  In the source the
`raise` happens before any mutating statement, so the tree is left exactly
as before the call; accordingly the embedding's error path returns the
error without constructing any tree (`removeGo` yields `none` before any
node is rebuilt). -/
theorem C4_remove_absent_key_fails_with_key_not_found (t : BTree) (k : Int)
    (h : k ∉ t.allKeys) : t.remove k = .error .keyNotFound := by
  rcases ht : t.root with _ | r
  · rw [BTree.remove, ht]
  · rw [BTree.remove, ht]
    simp only [removeGo_eq_none (by rw [BTree.allKeys, ht] at h; exact h)]

/-- Witness for C4: `remove(9)` on a tree that never contained 9 (the spec's
concrete scenario). -/
theorem C4_witness :
    BTree.remove ⟨5, some (.mk [1, 2] [])⟩ 9 = .error .keyNotFound :=
  C4_remove_absent_key_fails_with_key_not_found ⟨5, some (.mk [1, 2] [])⟩ 9
    (by simp [BTree.allKeys, BTreeNode.allKeys])

/-- C10: removing the only key of a tree whose root is a single-key leaf
leaves the root as an *empty leaf node* (zero keys, zero children) — the
tree does not return to the rootless `root = None` state — and the
traversal of the resulting tree yields nothing.  In `_fix_remove` the root
is exempt from the underflow check (line 378-379) and the collapse branch
(lines 287-289) does not apply to a leaf root (`len(children) == 1` fails),
so the emptied root node survives. -/
theorem C10_remove_last_key_keeps_empty_root_leaf (M : Nat) (k : Int) :
    BTree.remove ⟨M, some (.mk [k] [])⟩ k = .ok ⟨M, some (.mk [] [])⟩ ∧
    BTree.traverse_inorder ⟨M, some (.mk [] [])⟩ = [] := by
  constructor
  · simp [BTree.remove, removeGo, idxFor]
  · simp [BTree.traverse_inorder, BTreeNode.traverse_inorder]

theorem insertIdx_eq_take_cons_drop {α : Type} (l : List α) (n : Nat) (x : α)
    (h : n ≤ l.length) : l.insertIdx n x = l.take n ++ x :: l.drop n := by
  induction l generalizing n with
  | nil =>
    cases n with
    | zero => rfl
    | succ m => simp at h
  | cons a t ih =>
    cases n with
    | zero => simp [List.insertIdx_zero]
    | succ m =>
      simp only [List.insertIdx_succ_cons, List.take_succ_cons, List.drop_succ_cons,
        List.cons_append]
      rw [ih m (by simpa using h)]

/-- Replacing slot `i` and inserting just after it, as one take/drop
decomposition. -/
theorem set_insertIdx_succ {α : Type} (l : List α) (i : Nat) (x y : α)
    (h : i < l.length) :
    (l.set i x).insertIdx (i + 1) y = l.take i ++ x :: y :: l.drop (i + 1) := by
  induction l generalizing i with
  | nil => simp at h
  | cons a t ih =>
    cases i with
    | zero => simp [List.insertIdx_succ_cons, List.insertIdx_zero]
    | succ m =>
      simp only [List.set_cons_succ, List.insertIdx_succ_cons, List.take_succ_cons,
        List.drop_succ_cons, List.cons_append]
      rw [ih m (by simpa using h)]

/-- C5: the upward fix after insertion splits every node whose key count
exceeds `order - 1` exactly as the spec describes.  First conjunct (the
non-root case, `_fix_insert` lines 213-219): when the child of an internal
node overflows after the insertion below it, the parent ends up with the
promoted key `keys[mid]` inserted at the child index the split node
occupied, the child slot replaced by the left half and the right half
inserted immediately after it.  Second conjunct (the root case, lines
209-212): an overflowing root is replaced by a brand-new root holding only
the promoted key and the two halves as children. -/
theorem C5_overflow_split :
    (∀ (M : Nat) (key : Int) (keys : List Int) (c0 : BTreeNode) (cs : List BTreeNode),
      (c0 :: cs).length = keys.length + 1 →
      M - 1 < (insGo M key ((c0 :: cs).getD (idxFor key keys) c0)).keys.length →
      insGo M key (.mk keys (c0 :: cs)) =
        .mk (keys.take (idxFor key keys)
              ++ promotedKey M (insGo M key ((c0 :: cs).getD (idxFor key keys) c0))
                :: keys.drop (idxFor key keys))
            ((c0 :: cs).take (idxFor key keys)
              ++ splitLeftNode M (insGo M key ((c0 :: cs).getD (idxFor key keys) c0))
                :: splitRightNode M (insGo M key ((c0 :: cs).getD (idxFor key keys) c0))
                :: (c0 :: cs).drop (idxFor key keys + 1))) ∧
    (∀ (M : Nat) (key : Int) (r : BTreeNode),
      M - 1 < (insGo M key r).keys.length →
      BTree.insert ⟨M, some r⟩ key =
        ⟨M, some (.mk [promotedKey M (insGo M key r)]
          [splitLeftNode M (insGo M key r), splitRightNode M (insGo M key r)])⟩) := by
  constructor
  · intro M key keys c0 cs hs hover
    rw [insGo]
    simp only [if_neg (by omega : ¬ (insGo M key ((c0 :: cs).getD (idxFor key keys) c0)).keys.length ≤ M - 1)]
    have hile : idxFor key keys ≤ keys.length := idxFor_le key keys
    have hich : idxFor key keys < (c0 :: cs).length := by
      simp only [List.length_cons] at hs ⊢
      omega
    rw [insertIdx_eq_take_cons_drop keys _ _ hile,
      set_insertIdx_succ _ _ _ _ hich]
    rw [promotedKey, splitLeftNode, splitRightNode]
  · intro M key r hover
    rw [BTree.insert]
    simp only [if_neg (by omega : ¬ (insGo M key r).keys.length ≤ M - 1)]
    rw [promotedKey, splitLeftNode, splitRightNode]

/-- Witness for C5 at a concrete input: order 3, parent `[10]` with leaf
children `[1,2]` and `[20]`, inserting 3 overflows the first child, which
splits into `[1]` / promoted 2 / `[3]`. -/
theorem C5_witness :
    insGo 3 3 (.mk [10] [.mk [1, 2] [], .mk [20] []]) =
      .mk [2, 10] [.mk [1] [], .mk [3] [], .mk [20] []] := by
  have h := C5_overflow_split.1 3 3 [10] (.mk [1, 2] []) [.mk [20] []]
    (by rfl) (by simp [insGo, idxFor])
  rw [h]
  simp [insGo, idxFor, promotedKey, splitLeftNode, splitRightNode]

/-- Replacing slot `j` and deleting the slot just after it, as one
take/drop decomposition. -/
theorem set_eraseIdx_succ {α : Type} (l : List α) (j : Nat) (x : α)
    (h : j < l.length) :
    (l.set j x).eraseIdx (j + 1) = l.take j ++ x :: l.drop (j + 2) := by
  induction l generalizing j with
  | nil => simp at h
  | cons a t ih =>
    cases j with
    | zero => simp [List.eraseIdx_cons_succ, List.eraseIdx_zero, List.drop_one]
    | succ m =>
      simp only [List.set_cons_succ, List.eraseIdx_cons_succ, List.take_succ_cons,
        List.drop_succ_cons, List.cons_append]
      rw [ih m (by simpa using h)]

/-- The first component of the successor extraction is the first key of the
leaf reached by repeatedly descending into the leftmost child. -/
theorem popSucc_fst (M : Nat) : ∀ n : BTreeNode,
    (popSucc M n).1 = (leftmostLeaf n).keys.headD 0 := by
  intro n
  induction n using popSucc.induct M with
  | case1 ks =>
    rw [popSucc, leftmostLeaf]
    cases ks <;> simp
  | case2 ks c0 cs ih =>
    rw [popSucc, leftmostLeaf]
    exact ih

/-- C6: when `remove` finds the key in an internal node it uses the
in-order successor.  First conjunct: the key pulled out by the successor
extraction is the first (smallest) key of the leaf reached by descending
into the leftmost child repeatedly (lines 259-263).  Second conjunct: at
that leaf, precisely the first key is deleted (`del leaf.keys[0]`, line
264).  Third conjunct: on a match at index `idx` of an internal node, the
algorithm descends into `children[idx + 1]`, writes the extracted
successor over `keys[idx]` in place, and continues the repair walk with
that child (lines 256-264). -/
theorem C6_internal_remove_uses_inorder_successor :
    (∀ (M : Nat) (n : BTreeNode), (popSucc M n).1 = (leftmostLeaf n).keys.headD 0) ∧
    (∀ (M : Nat) (ks : List Int), popSucc M (.mk ks []) = (ks.headD 0, .mk ks.tail [])) ∧
    (∀ (M : Nat) (key : Int) (keys : List Int) (c0 : BTreeNode) (cs : List BTreeNode),
      idxFor key keys < keys.length → keys.getD (idxFor key keys) 0 = key →
      removeGo M key (.mk keys (c0 :: cs)) =
        some (fixChild M
          (.mk (keys.set (idxFor key keys)
                  (popSucc M ((c0 :: cs).getD (idxFor key keys + 1) c0)).1)
               ((c0 :: cs).set (idxFor key keys + 1)
                  (popSucc M ((c0 :: cs).getD (idxFor key keys + 1) c0)).2))
          (idxFor key keys + 1))) := by
  refine ⟨popSucc_fst, ?_, ?_⟩
  · intro M ks
    rw [popSucc]
    cases ks <;> simp
  · intro M key keys c0 cs h1 h2
    rw [removeGo]
    rw [if_pos ⟨h1, h2⟩]

/-- Witness for C6 at a concrete input: removing 5 from the internal root
`[5]` with children `[1]`, `[9]` replaces 5 by its successor 9 and repairs
the emptied leaf (order 3). -/
theorem C6_witness :
    removeGo 3 5 (.mk [5] [.mk [1] [], .mk [9] []]) =
      some (.mk [] [.mk [1, 9] []]) := by
  have h := C6_internal_remove_uses_inorder_successor.2.2 3 5 [5]
    (.mk [1] []) [.mk [9] []] (by simp [idxFor]) (by simp [idxFor])
  rw [h]
  simp [popSucc, fixChild, idxFor, isUnderflowing, isPopulous]

/-- C7 counterexample: the claim says that with no populous sibling on
either side the underflowing node merges with the *left* sibling whenever
both siblings exist.  Take order 5 and the tree with root `[3, 6]` and leaf
children `[1,2]`, `[4,5]`, `[7,8]`; `remove(4)` leaves the middle child
underflowing with both siblings present and neither populous.  Left-
preference would produce root `[6]` with children `[1,2,3,5]`, `[7,8]`;
the code (lines 343 and 352: the left sibling is used only when
`curr_node_child_idx == len(parent.children) - 1`) merges with the *right*
sibling, producing root `[3]` with children `[1,2]`, `[5,6,7,8]`. -/
theorem C7_counterexample :
    BTree.remove ⟨5, some (.mk [3, 6] [.mk [1, 2] [], .mk [4, 5] [], .mk [7, 8] []])⟩ 4 =
      .ok ⟨5, some (.mk [3] [.mk [1, 2] [], .mk [5, 6, 7, 8] []])⟩ ∧
    (BTree.mk 5 (some (.mk [3] [.mk [1, 2] [], .mk [5, 6, 7, 8] []])) ≠
      BTree.mk 5 (some (.mk [6] [.mk [1, 2, 3, 5] [], .mk [7, 8] []]))) := by
  constructor
  · simp [BTree.remove, removeGo, popSucc, fixChild, idxFor, isUnderflowing, isPopulous]
  · intro h
    have h2 := congrArg (fun t : BTree => t.root.map BTreeNode.keys) h
    simp [BTreeNode.keys] at h2

/-- C7 amended: during underflow repair with no populous sibling, the
current node is merged with the *right* sibling whenever one exists (the
node is not the last child); the *left* sibling is used only when the node
is the parent's last child.  In both cases the surviving node absorbs the
separator key from the parent and all of the consumed sibling's keys and
children, and the emptied slot and the consumed separator are removed from
the parent. -/
theorem C7_merge_prefers_right_sibling (M : Nat) (keys : List Int)
    (c0 : BTreeNode) (cs : List BTreeNode) (i : Nat)
    (hi : i < (c0 :: cs).length)
    (hu : isUnderflowing M ((c0 :: cs).getD i c0) = true)
    (hl : ¬(i ≠ 0 ∧ isPopulous M ((c0 :: cs).getD (i - 1) c0) = true))
    (hr : ¬(i ≠ (c0 :: cs).length - 1 ∧ isPopulous M ((c0 :: cs).getD (i + 1) c0) = true)) :
    (1 ≤ i → i = (c0 :: cs).length - 1 →
      fixChild M (.mk keys (c0 :: cs)) i =
        .mk (keys.take (i - 1) ++ keys.drop i)
            ((c0 :: cs).take (i - 1)
              ++ BTreeNode.mk
                   (((c0 :: cs).getD (i - 1) c0).keys
                     ++ keys.getD (i - 1) 0 :: ((c0 :: cs).getD i c0).keys)
                   (((c0 :: cs).getD (i - 1) c0).children
                     ++ ((c0 :: cs).getD i c0).children)
                :: (c0 :: cs).drop (i + 1))) ∧
    (i ≠ (c0 :: cs).length - 1 →
      fixChild M (.mk keys (c0 :: cs)) i =
        .mk (keys.take i ++ keys.drop (i + 1))
            ((c0 :: cs).take i
              ++ BTreeNode.mk
                   (((c0 :: cs).getD i c0).keys
                     ++ keys.getD i 0 :: ((c0 :: cs).getD (i + 1) c0).keys)
                   (((c0 :: cs).getD i c0).children
                     ++ ((c0 :: cs).getD (i + 1) c0).children)
                :: (c0 :: cs).drop (i + 2))) := by
  rw [fixChild]
  simp only [hu, not_true_eq_false, if_false, if_neg hl, if_neg hr]
  constructor
  · intro h1 hlast
    rw [if_pos hlast]
    obtain ⟨j, rfl⟩ : ∃ j, i = j + 1 := ⟨i - 1, by omega⟩
    simp only [Nat.add_sub_cancel]
    rw [List.eraseIdx_eq_take_drop_succ,
      set_eraseIdx_succ _ _ _ (by simp only [List.length_cons] at hi ⊢; omega)]
    simp [List.append_assoc]
  · intro hlast
    rw [if_neg hlast]
    rw [List.eraseIdx_eq_take_drop_succ, set_eraseIdx_succ _ _ _ hi]
    simp [List.append_assoc]

/-- Witness for C7 at a concrete input: order 5, parent `[3, 6]` with
children `[1,2]`, `[5]` (underflowing), `[7,8]`; the middle child has both
siblings, neither populous, and is merged with the right one. -/
theorem C7_witness :
    fixChild 5 (.mk [3, 6] [.mk [1, 2] [], .mk [5] [], .mk [7, 8] []]) 1 =
      .mk [3] [.mk [1, 2] [], .mk [5, 6, 7, 8] []] := by
  have h := (C7_merge_prefers_right_sibling 5 [3, 6] (.mk [1, 2] [])
    [.mk [5] [], .mk [7, 8] []] 1 (by simp)
    (by simp [isUnderflowing])
    (by simp [isPopulous])
    (by simp [isPopulous])).2 (by simp)
  rw [h]
  simp

/-- C2: for every valid order `M ≥ 3` and every sequence of insertions
(of keys not currently present) and successful removals applied to an
initially empty tree — the reachable states — `traverse_inorder` yields
the keys in strictly ascending order. -/
theorem C2_traverse_inorder_sorted (M : Nat) (t : BTree)
    (h : Reachable M t) : List.Pairwise (· < ·) t.traverse_inorder := by
  obtain ⟨hv, _⟩ := reachable_valid M t h
  obtain ⟨Mo, root⟩ := t
  obtain ⟨h3, hroot⟩ := hv
  cases root with
  | none =>
    rw [btrav_none]
    exact List.Pairwise.nil
  | some r =>
    rw [btrav_some]
    exact hroot.2.2.1

theorem C2_witness :
    Reachable 3 (BTree.insert (⟨3, none⟩ : BTree) 5) ∧
      List.Pairwise (· < ·)
        (BTree.insert (⟨3, none⟩ : BTree) 5).traverse_inorder := by
  have hreach : Reachable 3 (BTree.insert (⟨3, none⟩ : BTree) 5) :=
    Reachable.ins 3 ⟨3, none⟩ 5 (Reachable.empty 3 (by omega))
      (by rw [btrav_none]; simp)
  exact ⟨hreach, C2_traverse_inorder_sorted 3 _ hreach⟩

/-- C3: on every reachable tree, searching for a key that is currently
present returns (`found`) a node whose key list contains that key. -/
theorem C3_search_finds_present_key (M : Nat) (t : BTree) (k : Int)
    (h : Reachable M t) (hk : k ∈ t.traverse_inorder) :
    ∃ m, t.search k = .found m ∧ k ∈ m.keys := by
  obtain ⟨hv, _⟩ := reachable_valid M t h
  obtain ⟨Mo, root⟩ := t
  obtain ⟨h3, hroot⟩ := hv
  cases root with
  | none =>
    rw [btrav_none] at hk
    simp at hk
  | some r =>
    rw [btrav_some] at hk
    obtain ⟨hst, hun, hpw, hro⟩ := hroot
    exact searchGo_found k r hst hpw hk

theorem C3_witness :
    Reachable 3 (BTree.insert (⟨3, none⟩ : BTree) 5) ∧
      (5 : Int) ∈ (BTree.insert (⟨3, none⟩ : BTree) 5).traverse_inorder ∧
      ∃ m, (BTree.insert (⟨3, none⟩ : BTree) 5).search 5 = .found m
        ∧ (5 : Int) ∈ m.keys := by
  have hreach : Reachable 3 (BTree.insert (⟨3, none⟩ : BTree) 5) :=
    Reachable.ins 3 ⟨3, none⟩ 5 (Reachable.empty 3 (by omega))
      (by rw [btrav_none]; simp)
  have hk : (5 : Int) ∈ (BTree.insert (⟨3, none⟩ : BTree) 5).traverse_inorder := by
    show (5 : Int) ∈ BTree.traverse_inorder ⟨3, some (.mk [5] [])⟩
    rw [btrav_some, trav_leaf]
    simp
  exact ⟨hreach, hk, C3_search_finds_present_key 3 _ 5 hreach hk⟩

/-- C8: on every reachable tree of order `M ≥ 3`, every non-root node —
every node of every subtree hanging off the root — holds at least
`(M - 1) / 2` keys. -/
theorem C8_min_occupancy (M : Nat) (t : BTree) (h : Reachable M t)
    (r : BTreeNode) (hr : t.root = some r) :
    ∀ c ∈ r.children, ∀ d ∈ allNodes c, (M - 1) / 2 ≤ d.keys.length := by
  obtain ⟨hv, hord⟩ := reachable_valid M t h
  obtain ⟨Mo, root⟩ := t
  have hMo : Mo = M := hord
  subst hMo
  obtain ⟨h3, hroot⟩ := hv
  cases root with
  | none => exact Option.noConfusion hr
  | some r' =>
    obtain rfl : r' = r := Option.some.inj hr
    obtain ⟨hst, hun, hpw, hro⟩ := hroot
    intro c hc d hd
    exact subOk_allNodes Mo c (hro.2.2 c hc) d hd

theorem C8_witness :
    Reachable 3 ((((⟨3, none⟩ : BTree).insert 1).insert 2).insert 3) ∧
      ((((⟨3, none⟩ : BTree).insert 1).insert 2).insert 3).root
        = some (.mk [2] [.mk [1] [], .mk [3] []]) ∧
      ∀ c ∈ (BTreeNode.mk [2] [.mk [1] [], .mk [3] []]).children,
        ∀ d ∈ allNodes c, (3 - 1) / 2 ≤ d.keys.length := by
  have h1 : Reachable 3 ((⟨3, none⟩ : BTree).insert 1) :=
    Reachable.ins 3 _ 1 (Reachable.empty 3 (by omega))
      (by rw [btrav_none]; simp)
  have ht1 : (⟨3, none⟩ : BTree).insert 1 = ⟨3, some (.mk [1] [])⟩ := rfl
  have ht2 : ((⟨3, none⟩ : BTree).insert 1).insert 2
      = ⟨3, some (.mk [1, 2] [])⟩ := by
    rw [ht1, BTree.insert]
    simp [insGo, idxFor]
  have h2 : Reachable 3 (((⟨3, none⟩ : BTree).insert 1).insert 2) :=
    Reachable.ins 3 _ 2 h1
      (by rw [ht1, btrav_some, trav_leaf]; simp)
  have ht3 : (((⟨3, none⟩ : BTree).insert 1).insert 2).insert 3
      = ⟨3, some (.mk [2] [.mk [1] [], .mk [3] []])⟩ := by
    rw [ht2, BTree.insert]
    simp [insGo, idxFor]
  have h3r : Reachable 3 ((((⟨3, none⟩ : BTree).insert 1).insert 2).insert 3) :=
    Reachable.ins 3 _ 3 h2
      (by rw [ht2, btrav_some, trav_leaf]; simp)
  have hroot : ((((⟨3, none⟩ : BTree).insert 1).insert 2).insert 3).root
      = some (.mk [2] [.mk [1] [], .mk [3] []]) := by
    rw [ht3]
  exact ⟨h3r, hroot, C8_min_occupancy 3 _ h3r _ hroot⟩

/-- C9: inserting a key the tree already contains is not rejected —
`insert` has no failure path in the code — and the duplicate lands
immediately adjacent to the existing occurrence, so the key appears twice
consecutively in the traversal. -/
theorem C9_duplicate_insert_adjacent (M : Nat) (t : BTree) (k : Int)
    (h : Reachable M t) (hk : k ∈ t.traverse_inorder) :
    ∃ p s, (t.insert k).traverse_inorder = p ++ k :: k :: s := by
  obtain ⟨hv, _⟩ := reachable_valid M t h
  have htr := insert_trav t k hv
  rw [htr]
  obtain ⟨Mo, root⟩ := t
  cases root with
  | none =>
    rw [btrav_none] at hk
    simp at hk
  | some r =>
    obtain ⟨h3, hst, hun, hpw, hro⟩ := hv
    rw [btrav_some] at hk ⊢
    exact sortedIns_dup k _ hpw hk

theorem C9_witness :
    Reachable 3 (BTree.insert (⟨3, none⟩ : BTree) 5) ∧
      (5 : Int) ∈ (BTree.insert (⟨3, none⟩ : BTree) 5).traverse_inorder ∧
      ∃ p s, ((BTree.insert (⟨3, none⟩ : BTree) 5).insert 5).traverse_inorder
        = p ++ 5 :: 5 :: s := by
  have hreach : Reachable 3 (BTree.insert (⟨3, none⟩ : BTree) 5) :=
    Reachable.ins 3 ⟨3, none⟩ 5 (Reachable.empty 3 (by omega))
      (by rw [btrav_none]; simp)
  have hk : (5 : Int) ∈ (BTree.insert (⟨3, none⟩ : BTree) 5).traverse_inorder := by
    show (5 : Int) ∈ BTree.traverse_inorder ⟨3, some (.mk [5] [])⟩
    rw [btrav_some, trav_leaf]
    simp
  exact ⟨hreach, hk, C9_duplicate_insert_adjacent 3 _ 5 hreach hk⟩

end BTreePy
